import Mathlib

/-!
# Verification of the topic graph engine

Shallow embedding of the versioned topic store accessor, the tree builder
(TopicTreeService), the composite tree nodes (TopicComposite), the BFS
shortest-path engine (ShortestPathService) and its custom queue.

Conventions of the embedding:
* The external store is a list of topic records in store-iteration order
  (the in-memory backend iterates object values in insertion order, with at
  most one record per id).  `findById` is first-match lookup by `id`;
  `find` with an exact-match criteria object is `List.filter`.
* Async store calls cannot fail in the pure model, so the only thrown
  errors are the ones raised by the engine itself (missing id, circular
  reference); they are modelled with `Except`.
* JavaScript truthiness on optional string fields: `undefined` and the
  empty string are falsy, every other string is truthy.
* Unbounded `while` loops are modelled with an explicit fuel parameter;
  `none` means the loop would not have terminated within the given fuel.
  For the two parent-map walks (`getDistance`, `buildPath`) the call sites
  pass fuel `parent.length + 1`: a walk that does not revisit a node
  terminates within that bound, and a walk that revisits a node cycles
  forever, so the fueled function returns `some` exactly when the source
  loop terminates, with the same value.
-/

/-- A topic record as stored in the `topics` collection. -/
structure Topic where
  id : String
  baseTopicId : String
  name : String
  content : String
  description : Option String
  createdAt : String
  updatedAt : String
  version : Nat
  parentTopicId : Option String
  isLatest : Bool
  createdBy : Option String
deriving Repr, DecidableEq

/-- The `topics` collection, in store-iteration order. -/
abbrev Store := List Topic

/-- JavaScript truthiness of an optional string field. -/
def strTruthy : Option String → Bool
  | none => false
  | some s => s ≠ ""

/-- `database.findById('topics', id)`: lookup by record id. -/
def findById (db : Store) (topicId : String) : Option Topic :=
  db.find? (fun t => t.id == topicId)

/-- `database.find('topics', { parentTopicId: pid, isLatest: true })`, or
without the `isLatest` clause when `onlyLatest` is false. -/
def findChildren (db : Store) (pid : String) (onlyLatest : Bool) : List Topic :=
  db.filter (fun t => t.parentTopicId == some pid && (!onlyLatest || t.isLatest))

/-- `database.find('topics', { baseTopicId: base, isLatest: true })`. -/
def findBaseLatest (db : Store) (base : String) : List Topic :=
  db.filter (fun t => t.baseTopicId == base && t.isLatest)

/-- `topic.baseTopicId || topic.id` (empty string is falsy). -/
def baseOrId (t : Topic) : String :=
  if t.baseTopicId = "" then t.id else t.baseTopicId

/-- `ShortestPathService.getTopicById`: resolve a requested id under a
version-selection policy.  With `onlyLatest` an exact match that is itself
latest is returned as is; an exact match that is stale redirects to the
first latest version sharing its `baseTopicId`; no exact match is "not
found".  Without `onlyLatest` the exact match (or nothing) is returned. -/
def spGetTopicById (db : Store) (topicId : String) (onlyLatest : Bool) : Option Topic :=
  if onlyLatest then
    match findById db topicId with
    | some t => if t.isLatest then some t else (findBaseLatest db t.baseTopicId).head?
    | none => none
  else
    findById db topicId

/-- Errors thrown by `TopicTreeService` (message wrapping in the source
only decorates the text; the embedding keeps the error kind). -/
inductive TreeError where
  | idRequired
  | circularReference (topicId : String)
deriving Repr, DecidableEq

/-- `TopicTreeService.getTopicById`: same resolution as
`spGetTopicById`, but an empty (falsy) requested id throws. -/
def treeGetTopicById (db : Store) (topicId : String) (onlyLatest : Bool) :
    Except TreeError (Option Topic) :=
  if topicId = "" then
    .error .idRequired
  else if onlyLatest then
    match findById db topicId with
    | some t =>
        if t.isLatest then .ok (some t)
        else .ok (findBaseLatest db t.baseTopicId).head?
    | none => .ok none
  else
    .ok (findById db topicId)

/-! ## The custom BFS queue

`Queue` in `ShortestPathService`: a growable array with a head cursor,
compacted when the consumed prefix exceeds half the buffer.  The source
compares `head > items.length / 2` with JavaScript real division; for
naturals `h > len / 2` (floor division) is equivalent to `2 * h > len`,
which is the same condition. -/

structure Queue (α : Type) where
  items : List α
  head : Nat
deriving Repr, DecidableEq

def Queue.empty {α : Type} : Queue α := ⟨[], 0⟩

def Queue.isEmpty {α : Type} (q : Queue α) : Bool :=
  q.head ≥ q.items.length

def Queue.enqueue {α : Type} (q : Queue α) (x : α) : Queue α :=
  ⟨q.items ++ [x], q.head⟩

def Queue.size {α : Type} (q : Queue α) : Nat :=
  q.items.length - q.head

def Queue.dequeue {α : Type} [Inhabited α] (q : Queue α) : Option α × Queue α :=
  if q.isEmpty then
    (none, q)
  else if q.head + 1 > q.items.length / 2 then
    (some (q.items.getD q.head default), ⟨q.items.drop (q.head + 1), 0⟩)
  else
    (some (q.items.getD q.head default), ⟨q.items, q.head + 1⟩)

def Queue.peek {α : Type} [Inhabited α] (q : Queue α) : Option α :=
  if q.isEmpty then none else some (q.items.getD q.head default)

/-- The naive FIFO queue the custom queue is compared against. -/
def naiveEnqueue {α : Type} (l : List α) (x : α) : List α := l ++ [x]

def naiveDequeue {α : Type} (l : List α) : Option α × List α :=
  match l with
  | [] => (none, [])
  | x :: xs => (some x, xs)

/-- One enqueue or dequeue request. -/
inductive QOp (α : Type) where
  | enq (x : α)
  | deq
deriving Repr, DecidableEq

/-- Run a request sequence against the custom queue, collecting every
dequeue result (oldest first) and the final queue. -/
def runQueue {α : Type} [Inhabited α] : List (QOp α) → Queue α → List (Option α) × Queue α
  | [], q => ([], q)
  | QOp.enq x :: ops, q => runQueue ops (q.enqueue x)
  | QOp.deq :: ops, q =>
      (q.dequeue.1 :: (runQueue ops q.dequeue.2).1, (runQueue ops q.dequeue.2).2)

/-- Run a request sequence against the naive list queue. -/
def runNaive {α : Type} : List (QOp α) → List α → List (Option α) × List α
  | [], l => ([], l)
  | QOp.enq x :: ops, l => runNaive ops (naiveEnqueue l x)
  | QOp.deq :: ops, l =>
      ((naiveDequeue l).1 :: (runNaive ops (naiveDequeue l).2).1,
        (runNaive ops (naiveDequeue l).2).2)

/-- Abstraction of the custom queue: its pending elements, oldest first. -/
def Queue.toList {α : Type} (q : Queue α) : List α :=
  q.items.drop q.head

/-! ## Composite tree nodes and the tree builder -/

/-- `TopicLeaf` / `TopicComposite`: the variant is fixed at construction
time; a composite may hold an empty children list. -/
inductive TreeNode where
  | leaf (topic : Topic)
  | composite (topic : Topic) (children : List TreeNode)
deriving Repr

def TreeNode.topic : TreeNode → Topic
  | .leaf t => t
  | .composite t _ => t

def TreeNode.childNodes : TreeNode → List TreeNode
  | .leaf _ => []
  | .composite _ cs => cs

def TreeNode.isComposite : TreeNode → Bool
  | .leaf _ => false
  | .composite _ _ => true

/-- `TopicTreeService.hasChildren`: the classification query always
filters to latest versions, whatever the caller's policy. -/
def hasChildren (db : Store) (base : String) : Bool :=
  !(db.filter (fun t => t.parentTopicId == some base && t.isLatest)).isEmpty

/-- Sequential traversal of a list, aborting on the first `none` (the
source's `for` loops stop dead if an iteration diverges). -/
def optionTraverse {α β : Type} (f : α → Option β) : List α → Option (List β)
  | [] => some []
  | a :: as =>
      match f a with
      | none => none
      | some b => (optionTraverse f as).map (fun bs => b :: bs)

/-- `TopicTreeService.buildChildren`: expand one composite node.  The
attach query is keyed by the node's version id (`composite.getId()`), the
per-child classification by the child's `baseTopicId || id`. -/
def buildChildren (db : Store) (onlyLatest : Bool) : Nat → Topic → Option (List TreeNode)
  | 0, _ => none
  | fuel + 1, parentTopic =>
      optionTraverse (fun child =>
          if hasChildren db (baseOrId child) then
            (buildChildren db onlyLatest fuel child).map (TreeNode.composite child)
          else
            some (TreeNode.leaf child))
        (findChildren db parentTopic.id onlyLatest)

/-- `TopicTreeService.buildTopicTree`.  `none` is fuel exhaustion (the
source recursion would not terminate); `some (.ok none)` is "root not
found". -/
def buildTopicTree (db : Store) (topicId : String) (onlyLatest : Bool) (fuel : Nat) :
    Option (Except TreeError (Option TreeNode)) :=
  match treeGetTopicById db topicId onlyLatest with
  | .error e => some (.error e)
  | .ok none => some (.ok none)
  | .ok (some t) =>
      if hasChildren db (baseOrId t) then
        (buildChildren db onlyLatest fuel t).map (fun kids =>
          .ok (some (TreeNode.composite t kids)))
      else
        some (.ok (some (TreeNode.leaf t)))

/-- One step of the ancestor walk in `getTopicPath`: resolve the parent
reference when it is truthy. -/
def parentStep (db : Store) (onlyLatest : Bool) (t : Topic) : Option Topic :=
  match t.parentTopicId with
  | some p => if p = "" then none else spGetTopicById db p onlyLatest
  | none => none

/-- The `while (currentTopic)` loop of `TopicTreeService.getTopicPath`,
with the visited-id cycle guard.  `path` is kept root-first by prepending
(`path.unshift`). -/
def getTopicPathLoop (db : Store) (onlyLatest : Bool) :
    Nat → Option Topic → List String → List Topic →
    Option (Except TreeError (List Topic))
  | _, none, _, path => some (.ok path)
  | 0, some _, _, _ => none
  | fuel + 1, some t, visitedIds, path =>
      if t.id ∈ visitedIds then
        some (.error (.circularReference t.id))
      else if strTruthy t.parentTopicId then
        getTopicPathLoop db onlyLatest fuel (parentStep db onlyLatest t)
          (t.id :: visitedIds) (t :: path)
      else
        some (.ok (t :: path))

/-- `TopicTreeService.getTopicPath`: root-first path from the root to the
requested topic; a missing start yields an empty list, a revisited id a
circular-reference error. -/
def getTopicPath (db : Store) (topicId : String) (onlyLatest : Bool) (fuel : Nat) :
    Option (Except TreeError (List Topic)) :=
  match treeGetTopicById db topicId onlyLatest with
  | .error e => some (.error e)
  | .ok t0 => getTopicPathLoop db onlyLatest fuel t0 [] []

/-- The record pushed by `TopicTreeService.collectDescendants`: an object
literal with exactly the five component accessors, cast to `Topic`; the
remaining stored fields do not exist on it. -/
structure DescTopic where
  id : String
  name : String
  content : String
  version : Nat
  isLatest : Bool
deriving Repr, DecidableEq

/-- The five fields copied from a tree node by `collectDescendants`. -/
def descOfNode (n : TreeNode) : DescTopic :=
  ⟨n.topic.id, n.topic.name, n.topic.content, n.topic.version, n.topic.isLatest⟩

/-- `TopicTreeService.collectDescendants`: push each child, then recurse
into composite children, sharing one accumulator array. -/
def collectDescendants : List TreeNode → List DescTopic → List DescTopic
  | [], acc => acc
  | .leaf t :: rest, acc =>
      collectDescendants rest (acc ++ [descOfNode (.leaf t)])
  | .composite t cs :: rest, acc =>
      collectDescendants rest
        (collectDescendants cs (acc ++ [descOfNode (.composite t cs)]))

/-- `TopicTreeService.getTopicDescendants`: flatten the tree below the
root; empty when the root is missing or a leaf. -/
def getTopicDescendants (db : Store) (topicId : String) (onlyLatest : Bool) (fuel : Nat) :
    Option (Except TreeError (List DescTopic)) :=
  (buildTopicTree db topicId onlyLatest fuel).map (fun r =>
    match r with
    | .error e => .error e
    | .ok none => .ok []
    | .ok (some tree) =>
        if tree.isComposite then .ok (collectDescendants tree.childNodes []) else .ok [])

/-- Specification-side pre-order flattening of a list of tree nodes: each
node followed by its own descendants, then its later siblings. -/
def descendantList : List TreeNode → List TreeNode
  | [] => []
  | .leaf t :: rest => .leaf t :: descendantList rest
  | .composite t cs :: rest =>
      .composite t cs :: (descendantList cs ++ descendantList rest)

/-- Specification-side pre-order list of the proper descendant nodes of a
tree node (the claim's "corresponding tree nodes"). -/
def descendantNodes (n : TreeNode) : List TreeNode :=
  descendantList n.childNodes

/-! ## The shortest-path engine -/

/-- `ShortestPathResult` without the wall-clock statistic (real time is
outside the model) and the derived `queueMaxSize` metric. -/
structure PathResult where
  path : List Topic
  distance : Int
  pathExists : Bool
  nodesExplored : Nat
  maxDepth : Nat
deriving Repr, DecidableEq

/-- `parent.get(k) || ''` on the BFS parent-pointer map. -/
def lookupD (parent : List (String × String)) (k : String) : String :=
  match parent.lookup k with
  | some v => v
  | none => ""

/-- The `while (current && current !== start)` loop of
`ShortestPathService.getDistance`, counting parent-pointer hops. -/
def getDistanceAux (parent : List (String × String)) (start : String) :
    Nat → String → Nat → Option Nat
  | 0, current, acc =>
      if current = "" ∨ current = start then some acc else none
  | fuel + 1, current, acc =>
      if current = "" ∨ current = start then some acc
      else getDistanceAux parent start fuel (lookupD parent current) (acc + 1)

def getDistance (parent : List (String × String)) (start target : String)
    (fuel : Nat) : Option Nat :=
  getDistanceAux parent start fuel target 0

/-- The id-collecting loop of `ShortestPathService.buildPath`
(`pathIds.unshift`, walk the parent map, break on reaching the start). -/
def buildPathIdsAux (parent : List (String × String)) (start : String) :
    Nat → String → List String → Option (List String)
  | 0, current, acc =>
      if current = "" then some acc else none
  | fuel + 1, current, acc =>
      if current = "" then some acc
      else
        let next := lookupD parent current
        if next = start then some (start :: current :: acc)
        else buildPathIdsAux parent start fuel next (current :: acc)

def buildPathIds (parent : List (String × String)) (start target : String)
    (fuel : Nat) : Option (List String) :=
  buildPathIdsAux parent start fuel target []

/-- `ShortestPathService.buildPath`: re-resolve every id on the chain,
silently dropping ids that no longer resolve. -/
def buildPath (db : Store) (onlyLatest : Bool) (parent : List (String × String))
    (start target : String) (fuel : Nat) : Option (List Topic) :=
  (buildPathIds parent start target fuel).map (fun ids =>
    ids.filterMap (fun i => spGetTopicById db i onlyLatest))

/-- `ShortestPathService.getTopicNeighbors`: the parent edge (direct id
resolution, then base-id fallback under `onlyLatest`), then children keyed
by `baseTopicId || id`, then children keyed by the version id when it
differs. -/
def getTopicNeighbors (db : Store) (topic : Topic) (onlyLatest : Bool) : List Topic :=
  let parentPart :=
    match topic.parentTopicId with
    | some pid =>
        if pid = "" then []
        else
          match spGetTopicById db pid onlyLatest with
          | some p => [p]
          | none =>
              if onlyLatest then
                match (findBaseLatest db pid).head? with
                | some p => [p]
                | none => []
              else []
    | none => []
  let baseId := baseOrId topic
  let childPart := findChildren db baseId onlyLatest
  let directPart := if topic.id ≠ baseId then findChildren db topic.id onlyLatest else []
  parentPart ++ childPart ++ directPart

/-- BFS loop state: frontier queue, visited set, parent-pointer map and
the two statistics counters. -/
structure BfsState where
  queue : Queue String
  visited : List String
  parent : List (String × String)
  nodesExplored : Nat
  maxDepth : Nat
deriving Repr

instance : Inhabited String := ⟨""⟩

/-- The `for (const neighbor of neighbors)` body: visit, record the parent
pointer and enqueue every not-yet-visited neighbor. -/
def addNeighbors (currentId : String) : List Topic → BfsState → BfsState
  | [], st => st
  | n :: rest, st =>
      if st.visited.contains n.id then
        addNeighbors currentId rest st
      else
        addNeighbors currentId rest
          { st with
            visited := n.id :: st.visited
            parent := (n.id, currentId) :: st.parent
            queue := st.queue.enqueue n.id }

/-- The `while (!queue.isEmpty())` loop of `ShortestPathService.bfs`. -/
def bfsLoop (db : Store) (onlyLatest : Bool) (startTopic endTopic : Topic) :
    Nat → BfsState → Option PathResult
  | 0, _ => none
  | fuel + 1, st =>
      if st.queue.isEmpty then
        some ⟨[], -1, false, st.nodesExplored, st.maxDepth⟩
      else
        let dq := st.queue.dequeue
        let currentId := dq.1.getD ""
        let q1 := dq.2
        let explored := st.nodesExplored + 1
        if currentId = endTopic.id then
          match getDistance st.parent startTopic.id endTopic.id (st.parent.length + 1),
              buildPath db onlyLatest st.parent startTopic.id endTopic.id
                (st.parent.length + 1) with
          | some d, some p =>
              some ⟨p, (d : Int), true, explored, max st.maxDepth d⟩
          | _, _ => none
        else
          match spGetTopicById db currentId onlyLatest with
          | none =>
              bfsLoop db onlyLatest startTopic endTopic fuel
                { st with queue := q1, nodesExplored := explored }
          | some currentTopic =>
              match getDistance st.parent startTopic.id currentId (st.parent.length + 1) with
              | none => none
              | some curDist =>
                  let st1 : BfsState :=
                    { queue := q1, visited := st.visited, parent := st.parent,
                      nodesExplored := explored, maxDepth := max st.maxDepth curDist }
                  bfsLoop db onlyLatest startTopic endTopic fuel
                    (addNeighbors currentId (getTopicNeighbors db currentTopic onlyLatest) st1)

/-- `ShortestPathService.bfs`: seed the visited set and the frontier with
the resolved start topic. -/
def bfs (db : Store) (startTopic endTopic : Topic) (onlyLatest : Bool)
    (fuel : Nat) : Option PathResult :=
  bfsLoop db onlyLatest startTopic endTopic fuel
    ⟨Queue.empty.enqueue startTopic.id, [startTopic.id], [], 0, 0⟩

/-- `ShortestPathService.findShortestPath`: resolve both endpoints (a
missing endpoint is a successful negative result), short-circuit on equal
requested identifiers, otherwise run BFS. -/
def findShortestPath (db : Store) (startTopicId endTopicId : String)
    (onlyLatest : Bool) (fuel : Nat) : Option PathResult :=
  match spGetTopicById db startTopicId onlyLatest,
      spGetTopicById db endTopicId onlyLatest with
  | some startTopic, some endTopic =>
      if startTopicId = endTopicId then
        some ⟨[startTopic], 0, true, 1, 0⟩
      else
        bfs db startTopic endTopic onlyLatest fuel
  | _, _ => some ⟨[], -1, false, 0, 0⟩

/-! ## Claim C1: the tree-building recursion -/

/-- Tree expansion as claim C1 words it: a node's children are the topics
whose `parentTopicId` equals the node's `baseTopicId`, filtered to latest
versions exactly when `onlyLatest` is set; the node is a leaf when there
are none, and otherwise a composite over the recursively expanded
children. -/
def claimExpand (db : Store) (onlyLatest : Bool) : Nat → Topic → Option TreeNode
  | 0, t =>
      if (findChildren db t.baseTopicId onlyLatest).isEmpty then
        some (.leaf t)
      else none
  | fuel + 1, t =>
      let kids := findChildren db t.baseTopicId onlyLatest
      if kids.isEmpty then some (.leaf t)
      else (optionTraverse (claimExpand db onlyLatest fuel) kids).map (TreeNode.composite t)

/-- Claim C1 as a whole-procedure description: resolve the root via the
store accessor, then expand per `claimExpand`. -/
def claimTree (db : Store) (topicId : String) (onlyLatest : Bool) (fuel : Nat) :
    Option (Except TreeError (Option TreeNode)) :=
  match treeGetTopicById db topicId onlyLatest with
  | .error e => some (.error e)
  | .ok none => some (.ok none)
  | .ok (some t) => (claimExpand db onlyLatest fuel t).map (fun n => .ok (some n))

/-- Tree expansion as the code actually behaves (the amended claim): the
leaf/composite classification asks for latest-version children of the
node's `baseTopicId || id` regardless of the caller's policy, while the
attached children are the topics whose `parentTopicId` equals the node's
version id, filtered to latest exactly when `onlyLatest` is set. -/
def specExpand (db : Store) (onlyLatest : Bool) : Nat → Topic → Option TreeNode
  | 0, t => if hasChildren db (baseOrId t) then none else some (.leaf t)
  | fuel + 1, t =>
      if hasChildren db (baseOrId t) then
        (optionTraverse (specExpand db onlyLatest fuel)
            (findChildren db t.id onlyLatest)).map (TreeNode.composite t)
      else some (.leaf t)

/-- The amended whole-procedure description. -/
def specTree (db : Store) (topicId : String) (onlyLatest : Bool) (fuel : Nat) :
    Option (Except TreeError (Option TreeNode)) :=
  match treeGetTopicById db topicId onlyLatest with
  | .error e => some (.error e)
  | .ok none => some (.ok none)
  | .ok (some t) => (specExpand db onlyLatest fuel t).map (fun n => .ok (some n))

theorem optionTraverse_congr {α β : Type} {f g : α → Option β} (l : List α)
    (h : ∀ a, f a = g a) : optionTraverse f l = optionTraverse g l := by
  induction l with
  | nil => rfl
  | cons a as ih => simp only [optionTraverse, h a, ih]

theorem expand_eq (db : Store) (f : Bool) : ∀ fuel t,
    (if hasChildren db (baseOrId t) then
      (buildChildren db f fuel t).map (TreeNode.composite t)
    else some (.leaf t)) = specExpand db f fuel t := by
  intro fuel
  induction fuel with
  | zero =>
      intro t
      by_cases h : hasChildren db (baseOrId t)
      · simp [specExpand, buildChildren, h]
      · simp [specExpand, h]
  | succ n ih =>
      intro t
      by_cases h : hasChildren db (baseOrId t)
      · simp only [specExpand, buildChildren, h, if_pos]
        congr 1
        exact optionTraverse_congr _ (fun c => ih c)
      · simp [specExpand, h]

/-- Compact builder for concrete topic records used in witnesses. -/
def mkTopic (i b : String) (p : Option String) (v : Nat) (lat : Bool) : Topic :=
  ⟨i, b, i, i, none, "", "", v, p, lat, none⟩

/-- Store with a root and one non-latest child: under `onlyLatest = false`
the claimed child query sees the child, the code's always-latest
classification does not. -/
def c1dbA : Store :=
  [mkTopic "r" "r" none 1 true, mkTopic "a" "a" (some "r") 1 false]

/-- Store whose root is a second version (`id` differs from
`baseTopicId`) with a child pointing at the base id: the code classifies
the root as composite but attaches nothing, the claimed base-keyed attach
query finds the child. -/
def c1dbB : Store :=
  [mkTopic "r2" "r1" none 2 true, mkTopic "k" "k" (some "r1") 1 true]

def treeResultIsComposite : Option (Except TreeError (Option TreeNode)) → Bool
  | some (.ok (some n)) => n.isComposite
  | _ => false

def treeResultChildCount : Option (Except TreeError (Option TreeNode)) → Nat
  | some (.ok (some (.composite _ cs))) => cs.length
  | _ => 0

/-- C1 counterexample: `buildTopicTree` differs from the claimed
procedure on two concrete stores.  On `c1dbA` with `onlyLatest = false`
the code builds a leaf (its has-children test filters to latest versions
even though the flag is off) while the claimed procedure builds a
composite; on `c1dbB` the code builds a childless composite (it attaches
children by the root's version id `r2`, not its `baseTopicId` `r1`) while
the claimed procedure attaches the child. -/
theorem c1_counterexample :
    buildTopicTree c1dbA "r" false 5 ≠ claimTree c1dbA "r" false 5 ∧
    buildTopicTree c1dbB "r2" true 5 ≠ claimTree c1dbB "r2" true 5 := by
  constructor
  · intro h
    exact absurd (congrArg treeResultIsComposite h) (by decide)
  · intro h
    exact absurd (congrArg treeResultChildCount h) (by decide)

/-- C1 (amended): for every store, root id, policy flag and fuel,
`buildTopicTree` resolves the root via the store accessor and coincides
with the amended recursive specification: every node's leaf/composite
classification queries children of the node's `baseTopicId || id`
restricted to latest versions regardless of `onlyLatest`, while the
recursively attached children are the topics whose `parentTopicId` equals
the node's version id, filtered to latest exactly when `onlyLatest` is
set, depth-first, parent before children. -/
theorem c1_buildTopicTree_eq_specTree :
    ∀ (db : Store) (topicId : String) (f : Bool) (fuel : Nat),
      buildTopicTree db topicId f fuel = specTree db topicId f fuel := by
  intro db topicId f fuel
  unfold buildTopicTree specTree
  cases treeGetTopicById db topicId f with
  | error e => rfl
  | ok o =>
      cases o with
      | none => rfl
      | some t =>
          dsimp only
          rw [← expand_eq db f fuel t]
          by_cases h : hasChildren db (baseOrId t)
          · cases buildChildren db f fuel t <;> simp [h]
          · simp [h]

/-! ## Claim C9: the custom queue refines a naive FIFO -/

theorem Queue.toList_enqueue {α : Type} (q : Queue α) (x : α)
    (h : q.head ≤ q.items.length) :
    (q.enqueue x).toList = q.toList ++ [x] := by
  simp [Queue.enqueue, Queue.toList, List.drop_append_of_le_length h]

theorem Queue.head_enqueue {α : Type} (q : Queue α) (x : α)
    (h : q.head ≤ q.items.length) :
    (q.enqueue x).head ≤ (q.enqueue x).items.length := by
  simp only [Queue.enqueue, List.length_append, List.length_cons]
  omega

theorem Queue.size_spec {α : Type} (q : Queue α) :
    q.size = q.toList.length := by
  simp [Queue.size, Queue.toList]

theorem Queue.isEmpty_true_iff {α : Type} (q : Queue α) :
    q.isEmpty = true ↔ q.items.length ≤ q.head := by
  simp [Queue.isEmpty, ge_iff_le]

theorem Queue.isEmpty_spec {α : Type} (q : Queue α) :
    q.isEmpty = q.toList.isEmpty := by
  by_cases h : q.items.length ≤ q.head
  · rw [(Queue.isEmpty_true_iff q).mpr h]
    rw [show q.toList = [] from List.drop_eq_nil_of_le h]
    rfl
  · push_neg at h
    have hne : q.toList ≠ [] := by
      simp only [Queue.toList]
      intro hnil
      have := List.drop_eq_nil_iff.mp hnil
      omega
    have h1 : q.isEmpty = false := by
      rw [Bool.eq_false_iff]
      intro hx
      have := (Queue.isEmpty_true_iff q).mp hx
      omega
    rw [h1]
    cases hl : q.toList with
    | nil => exact absurd hl hne
    | cons a as => rfl

theorem Queue.dequeue_spec {α : Type} [Inhabited α] (q : Queue α)
    (h : q.head ≤ q.items.length) :
    q.dequeue.1 = q.toList.head? ∧ q.dequeue.2.toList = q.toList.tail ∧
      q.dequeue.2.head ≤ q.dequeue.2.items.length := by
  by_cases he : q.items.length ≤ q.head
  · have hb : q.isEmpty = true := (Queue.isEmpty_true_iff q).mpr he
    have hnil : q.toList = [] := List.drop_eq_nil_of_le he
    simp [Queue.dequeue, hb, hnil, h]
  · push_neg at he
    have hb : q.isEmpty = false := by
      rw [Bool.eq_false_iff]
      intro hx
      have := (Queue.isEmpty_true_iff q).mp hx
      omega
    have hdrop : q.toList = q.items[q.head] :: q.items.drop (q.head + 1) := by
      simp only [Queue.toList]
      exact List.drop_eq_getElem_cons he
    have hitem : q.items.getD q.head default = q.items[q.head] :=
      List.getD_eq_getElem q.items default he
    by_cases hc : q.head + 1 > q.items.length / 2
    · have hdq : q.dequeue =
          (some (q.items.getD q.head default), ⟨q.items.drop (q.head + 1), 0⟩) := by
        simp [Queue.dequeue, hb, hc]
      rw [hdq]
      refine ⟨?_, ?_, ?_⟩
      · rw [hitem, hdrop]
        rfl
      · show Queue.toList ⟨q.items.drop (q.head + 1), 0⟩ = q.toList.tail
        rw [hdrop]
        simp [Queue.toList]
      · exact Nat.zero_le _
    · have hdq : q.dequeue =
          (some (q.items.getD q.head default), ⟨q.items, q.head + 1⟩) := by
        simp [Queue.dequeue, hb, hc]
      rw [hdq]
      refine ⟨?_, ?_, ?_⟩
      · rw [hitem, hdrop]
        rfl
      · show Queue.toList ⟨q.items, q.head + 1⟩ = q.toList.tail
        rw [hdrop]
        simp [Queue.toList]
      · show q.head + 1 ≤ q.items.length
        omega

theorem runQueue_refines {α : Type} [Inhabited α] :
    ∀ (ops : List (QOp α)) (q : Queue α) (l : List α),
      q.toList = l → q.head ≤ q.items.length →
      (runQueue ops q).1 = (runNaive ops l).1 ∧
      (runQueue ops q).2.toList = (runNaive ops l).2 ∧
      (runQueue ops q).2.head ≤ (runQueue ops q).2.items.length := by
  intro ops
  induction ops with
  | nil =>
      intro q l hql hwf
      exact ⟨rfl, hql, hwf⟩
  | cons op ops ih =>
      intro q l hql hwf
      cases op with
      | enq x =>
          exact ih (q.enqueue x) (naiveEnqueue l x)
            (by rw [Queue.toList_enqueue q x hwf, hql]; rfl)
            (Queue.head_enqueue q x hwf)
      | deq =>
          obtain ⟨hd, htl, hwf2⟩ := Queue.dequeue_spec q hwf
          have hnd1 : (naiveDequeue l).1 = l.head? := by cases l <;> rfl
          have hnd2 : (naiveDequeue l).2 = l.tail := by cases l <;> rfl
          obtain ⟨ih1, ih2, ih3⟩ := ih q.dequeue.2 l.tail (by rw [htl, hql]) hwf2
          refine ⟨?_, ?_, ?_⟩
          · show q.dequeue.1 :: (runQueue ops q.dequeue.2).1 =
              (naiveDequeue l).1 :: (runNaive ops (naiveDequeue l).2).1
            rw [hnd1, hnd2, hd, hql, ih1]
          · show (runQueue ops q.dequeue.2).2.toList = (runNaive ops (naiveDequeue l).2).2
            rw [hnd2, ih2]
          · exact ih3

/-- C9: the head-cursor queue used by BFS behaves exactly like a naive
FIFO queue on every operation sequence: the dequeue outputs coincide
(including `none` on an empty queue), the final sizes and emptiness
coincide, and the periodic compaction inside `dequeue` never changes any
observable result. -/
theorem c9_queue_refines_fifo {α : Type} [Inhabited α] (ops : List (QOp α)) :
    (runQueue ops Queue.empty).1 = (runNaive ops ([] : List α)).1 ∧
    (runQueue ops Queue.empty).2.size = (runNaive ops ([] : List α)).2.length ∧
    (runQueue ops Queue.empty).2.isEmpty =
      (runNaive ops ([] : List α)).2.isEmpty := by
  obtain ⟨h1, h2, h3⟩ := runQueue_refines ops Queue.empty [] rfl (by simp [Queue.empty])
  refine ⟨h1, ?_, ?_⟩
  · rw [Queue.size_spec, h2]
  · rw [Queue.isEmpty_spec, h2]

/-! ## Claims C7, C8, C3: endpoint handling and resolution semantics -/

/-- Tiny store with a root and one child, used to instantiate theorems. -/
def demoDb : Store :=
  [mkTopic "r" "r" none 1 true, mkTopic "a" "a" (some "r") 1 true]

/-- C7: whenever either endpoint of `findShortestPath` fails to resolve,
the call returns a successful negative result, with `pathExists = false`,
`distance = -1`, an empty path and zeroed statistics, rather than raising
an error. -/
theorem c7_missing_endpoint_negative_result :
    ∀ (db : Store) (s e : String) (f : Bool) (fuel : Nat),
      spGetTopicById db s f = none ∨ spGetTopicById db e f = none →
      findShortestPath db s e f fuel = some ⟨[], -1, false, 0, 0⟩ := by
  intro db s e f fuel h
  unfold findShortestPath
  rcases h with h | h
  · rw [h]
  · rw [h]
    cases spGetTopicById db s f <;> rfl

theorem c7_witness :
    findShortestPath demoDb "zz" "a" true 3 = some ⟨[], -1, false, 0, 0⟩ :=
  c7_missing_endpoint_negative_result demoDb "zz" "a" true 3 (Or.inl (by decide))

/-- C8: for an existing topic, calling `findShortestPath` with the same
requested identifier for both endpoints (compared literally, before
resolution) short-circuits without BFS: it returns `pathExists = true`,
`distance = 0` and the single-element path holding the resolved start
topic, with one explored node and no depth. -/
theorem c8_same_id_short_circuit :
    ∀ (db : Store) (x : String) (f : Bool) (fuel : Nat) (t : Topic),
      spGetTopicById db x f = some t →
      findShortestPath db x x f fuel = some ⟨[t], 0, true, 1, 0⟩ := by
  intro db x f fuel t h
  unfold findShortestPath
  rw [h]
  simp

theorem c8_witness :
    findShortestPath demoDb "a" "a" true 3 =
      some ⟨[mkTopic "a" "a" (some "r") 1 true], 0, true, 1, 0⟩ :=
  c8_same_id_short_circuit demoDb "a" true 3 (mkTopic "a" "a" (some "r") 1 true)
    (by decide)

/-- Store with a two-version lineage (stale `s1`, latest `s2`) plus an
unrelated child, used for the resolution-semantics claims. -/
def c3db : Store :=
  [mkTopic "s1" "s1" none 1 false,
   mkTopic "s2" "s1" none 2 true,
   mkTopic "c" "c" (some "s1") 1 true]

/-- C3: resolution semantics of the store accessors.  Under
`onlyLatest = true` an id whose exact match is latest resolves to it, an
id whose exact match is stale resolves to the latest version sharing its
`baseTopicId`, and an unmatched id resolves to nothing; under
`onlyLatest = false` resolution is the exact match or nothing.  The tree
service accessor agrees on nonempty ids, and `findShortestPath` with a
stale version id resolves the start to the latest version before
searching under `onlyLatest = true`, while `onlyLatest = false` keeps the
stale version as the literal start node. -/
theorem c3_resolution_semantics :
    ∀ (db : Store) (v1 v2 tL : Topic) (id0 idL : String) (fuel : Nat),
      findById db v1.id = some v1 →
      v1.isLatest = false →
      findBaseLatest db v1.baseTopicId = [v2] →
      findById db id0 = none →
      findById db idL = some tL →
      tL.isLatest = true →
      spGetTopicById db v1.id true = some v2 ∧
      spGetTopicById db v1.id false = some v1 ∧
      spGetTopicById db id0 true = none ∧
      spGetTopicById db id0 false = none ∧
      spGetTopicById db idL true = some tL ∧
      spGetTopicById db idL false = some tL ∧
      (v1.id ≠ "" → treeGetTopicById db v1.id true = .ok (some v2)) ∧
      (idL ≠ "" → treeGetTopicById db idL true = .ok (some tL)) ∧
      findShortestPath db v1.id v1.id true fuel = some ⟨[v2], 0, true, 1, 0⟩ ∧
      findShortestPath db v1.id v1.id false fuel = some ⟨[v1], 0, true, 1, 0⟩ := by
  intro db v1 v2 tL id0 idL fuel h1 hstale hlat h0 hL hLl
  have e1 : spGetTopicById db v1.id true = some v2 := by
    unfold spGetTopicById
    rw [if_pos rfl, h1]
    simp [hstale, hlat]
  have e2 : spGetTopicById db v1.id false = some v1 := by
    unfold spGetTopicById
    rw [if_neg (by simp), h1]
  have e5 : spGetTopicById db idL true = some tL := by
    unfold spGetTopicById
    rw [if_pos rfl, hL]
    simp [hLl]
  refine ⟨e1, e2, ?_, ?_, e5, ?_, ?_, ?_, ?_, ?_⟩
  · unfold spGetTopicById
    rw [if_pos rfl, h0]
  · unfold spGetTopicById
    rw [if_neg (by simp), h0]
  · unfold spGetTopicById
    rw [if_neg (by simp), hL]
  · intro hne
    unfold treeGetTopicById
    rw [if_neg hne, if_pos rfl, h1]
    simp [hstale, hlat]
  · intro hne
    unfold treeGetTopicById
    rw [if_neg hne, if_pos rfl, hL]
    simp [hLl]
  · unfold findShortestPath
    rw [e1]
    simp
  · unfold findShortestPath
    rw [e2]
    simp

theorem c3_witness :
    spGetTopicById c3db "s1" true = some (mkTopic "s2" "s1" none 2 true) ∧
    spGetTopicById c3db "s1" false = some (mkTopic "s1" "s1" none 1 false) ∧
    spGetTopicById c3db "zz" true = none ∧
    spGetTopicById c3db "zz" false = none ∧
    spGetTopicById c3db "s2" true = some (mkTopic "s2" "s1" none 2 true) ∧
    spGetTopicById c3db "s2" false = some (mkTopic "s2" "s1" none 2 true) ∧
    treeGetTopicById c3db "s1" true = .ok (some (mkTopic "s2" "s1" none 2 true)) ∧
    treeGetTopicById c3db "s2" true = .ok (some (mkTopic "s2" "s1" none 2 true)) ∧
    findShortestPath c3db "s1" "s1" true 3 =
      some ⟨[mkTopic "s2" "s1" none 2 true], 0, true, 1, 0⟩ ∧
    findShortestPath c3db "s1" "s1" false 3 =
      some ⟨[mkTopic "s1" "s1" none 1 false], 0, true, 1, 0⟩ := by
  obtain ⟨a1, a2, a3, a4, a5, a6, a7, a8, a9, a10⟩ :=
    c3_resolution_semantics c3db (mkTopic "s1" "s1" none 1 false)
      (mkTopic "s2" "s1" none 2 true) (mkTopic "s2" "s1" none 2 true) "zz" "s2" 3
      (by decide) (by decide) (by decide) (by decide) (by decide) (by decide)
  exact ⟨a1, a2, a3, a4, a5, a6, a7 (by decide), a8 (by decide), a9, a10⟩

/-! ## Claim C10: the flattened-descendants projection -/

theorem collectDescendants_spec (nodes : List TreeNode) (acc : List DescTopic) :
    collectDescendants nodes acc = acc ++ (descendantList nodes).map descOfNode := by
  induction nodes, acc using collectDescendants.induct with
  | case1 acc => simp [collectDescendants, descendantList]
  | case2 t rest acc ih =>
      simp only [collectDescendants, descendantList, ih, List.map_cons]
      simp
  | case3 t cs rest acc ih1 ih2 =>
      rw [collectDescendants, ih2, ih1]
      simp [descendantList]

/-- C10: whenever `getTopicDescendants` returns a list, that list is
exactly the pre-order projection of the built tree's proper descendant
nodes to records carrying the five fields `id`, `name`, `content`,
`version`, `isLatest` copied from those nodes; the remaining stored
fields (`baseTopicId`, `parentTopicId`, `description`, `createdAt`,
`updatedAt`, `createdBy`) do not occur on the returned records, whose
type `DescTopic` has exactly the five copied fields. -/
theorem c10_descendants_projection :
    ∀ (db : Store) (topicId : String) (f : Bool) (fuel : Nat) (l : List DescTopic),
      getTopicDescendants db topicId f fuel = some (.ok l) →
      (∃ tree, buildTopicTree db topicId f fuel = some (.ok (some tree)) ∧
        l = (descendantNodes tree).map descOfNode) ∨
      (buildTopicTree db topicId f fuel = some (.ok none) ∧ l = []) := by
  intro db topicId f fuel l h
  unfold getTopicDescendants at h
  cases hb : buildTopicTree db topicId f fuel with
  | none => rw [hb] at h; exact absurd h (by simp)
  | some r =>
      rw [hb] at h
      cases r with
      | error e => exact absurd h (by simp)
      | ok o =>
          cases o with
          | none =>
              right
              refine ⟨rfl, ?_⟩
              simp at h
              exact h
          | some tree =>
              left
              refine ⟨tree, rfl, ?_⟩
              cases tree with
              | leaf t =>
                  simp [TreeNode.isComposite, descendantNodes, TreeNode.childNodes,
                    descendantList] at h ⊢
                  exact h
              | composite t cs =>
                  simp [TreeNode.isComposite, TreeNode.childNodes,
                    collectDescendants_spec, descendantNodes] at h ⊢
                  exact h.symm

theorem c10_witness :
    (∃ tree, buildTopicTree demoDb "r" true 3 = some (.ok (some tree)) ∧
      [(⟨"a", "a", "a", 1, true⟩ : DescTopic)] = (descendantNodes tree).map descOfNode) ∨
    (buildTopicTree demoDb "r" true 3 = some (.ok none) ∧
      [(⟨"a", "a", "a", 1, true⟩ : DescTopic)] = []) :=
  c10_descendants_projection demoDb "r" true 3 [⟨"a", "a", "a", 1, true⟩] (by
    have hb : buildTopicTree demoDb "r" true 3 =
        some (.ok (some (TreeNode.composite (mkTopic "r" "r" none 1 true)
          [TreeNode.leaf (mkTopic "a" "a" (some "r") 1 true)]))) := rfl
    unfold getTopicDescendants
    rw [hb]
    simp [TreeNode.isComposite, TreeNode.childNodes, collectDescendants_spec,
      descendantList, descOfNode, TreeNode.topic, mkTopic])

/-! ## Claim C6: the circular-reference guard in getTopicPath -/

theorem head?_mem {α : Type} {l : List α} {a : α} (h : l.head? = some a) : a ∈ l := by
  cases l with
  | nil => exact absurd h (by simp)
  | cons x xs =>
      simp at h
      simp [h]

theorem spGet_mem {db : Store} {i : String} {f : Bool} {t : Topic}
    (h : spGetTopicById db i f = some t) : t ∈ db := by
  unfold spGetTopicById at h
  cases f with
  | false =>
      simp only [Bool.false_eq_true, if_neg] at h
      exact List.mem_of_find?_eq_some h
  | true =>
      simp only [if_pos] at h
      cases hf : findById db i with
      | none => rw [hf] at h; exact absurd h (by simp)
      | some u =>
          rw [hf] at h
          dsimp only at h
          by_cases hu : u.isLatest
          · rw [if_pos hu] at h
            cases h
            exact List.mem_of_find?_eq_some hf
          · rw [if_neg hu] at h
            have := head?_mem h
            exact List.mem_of_mem_filter this

theorem treeGet_mem {db : Store} {i : String} {f : Bool} {t : Topic}
    (h : treeGetTopicById db i f = .ok (some t)) : t ∈ db := by
  unfold treeGetTopicById at h
  by_cases he : i = ""
  · rw [if_pos he] at h
    exact absurd h (by simp)
  · rw [if_neg he] at h
    cases f with
    | false =>
        simp only [Bool.false_eq_true, if_neg] at h
        have : findById db i = some t := by
          cases hf : findById db i <;> rw [hf] at h <;> simp_all
        exact List.mem_of_find?_eq_some this
    | true =>
        simp only [if_pos] at h
        cases hf : findById db i with
        | none => rw [hf] at h; exact absurd h (by simp)
        | some u =>
            rw [hf] at h
            dsimp only at h
            by_cases hu : u.isLatest
            · rw [if_pos hu] at h
              simp at h
              rw [← h]
              exact List.mem_of_find?_eq_some hf
            · rw [if_neg hu] at h
              simp at h
              exact List.mem_of_mem_filter (head?_mem h)

theorem parentStep_mem {db : Store} {f : Bool} {t u : Topic}
    (h : parentStep db f t = some u) : u ∈ db := by
  unfold parentStep at h
  cases hp : t.parentTopicId with
  | none => rw [hp] at h; exact absurd h (by simp)
  | some p =>
      rw [hp] at h
      dsimp only at h
      by_cases he : p = ""
      · rw [if_pos he] at h
        exact absurd h (by simp)
      · rw [if_neg he] at h
        exact spGet_mem h

theorem parentStep_truthy {db : Store} {f : Bool} {t u : Topic}
    (h : parentStep db f t = some u) : strTruthy t.parentTopicId = true := by
  unfold parentStep at h
  cases hp : t.parentTopicId with
  | none => rw [hp] at h; exact absurd h (by simp)
  | some p =>
      rw [hp] at h
      dsimp only at h
      by_cases he : p = ""
      · rw [if_pos he] at h
        exact absurd h (by simp)
      · simp [strTruthy, he]

/-- The resolved starting topic of the ancestor walk (nothing when the
initial resolution throws or misses). -/
def chainStart (db : Store) (topicId : String) (f : Bool) : Option Topic :=
  match treeGetTopicById db topicId f with
  | .error _ => none
  | .ok t0 => t0

/-- The ancestor chain of the claim: successive `parentTopicId`
resolutions under the same policy, starting from the resolved topic. -/
def ancChain (db : Store) (f : Bool) (t0 : Option Topic) : Nat → Option Topic
  | 0 => t0
  | n + 1 =>
      match ancChain db f t0 n with
      | none => none
      | some t => parentStep db f t

theorem ancChain_succ_of_some {db : Store} {f : Bool} {t0 : Option Topic} {n : Nat}
    {t : Topic} (h : ancChain db f t0 n = some t) :
    ancChain db f t0 (n + 1) = parentStep db f t := by
  unfold ancChain
  rw [h]

theorem ancChain_some_step {db : Store} {f : Bool} {t0 : Option Topic} {n : Nat}
    {t : Topic} (h : ancChain db f t0 (n + 1) = some t) :
    ∃ s, ancChain db f t0 n = some s := by
  unfold ancChain at h
  cases hs : ancChain db f t0 n with
  | none => rw [hs] at h; exact absurd h (by simp)
  | some s => exact ⟨s, rfl⟩

theorem ancChain_some_mono {db : Store} {f : Bool} {t0 : Option Topic} :
    ∀ {n m : Nat}, m ≤ n → ∀ {t : Topic}, ancChain db f t0 n = some t →
      ∃ s, ancChain db f t0 m = some s := by
  intro n
  induction n with
  | zero =>
      intro m hm t h
      have : m = 0 := Nat.le_zero.mp hm
      rw [this]
      exact ⟨t, h⟩
  | succ n ih =>
      intro m hm t h
      rcases Nat.lt_or_ge m (n + 1) with hlt | hge
      · obtain ⟨s, hs⟩ := ancChain_some_step h
        exact ih (Nat.lt_succ_iff.mp hlt) hs
      · have : m = n + 1 := Nat.le_antisymm hm hge
        rw [this]
        exact ⟨t, h⟩

theorem ancChain_mem {db : Store} {topicId : String} {f : Bool} :
    ∀ {n : Nat} {t : Topic},
      ancChain db f (chainStart db topicId f) n = some t → t ∈ db := by
  intro n
  induction n with
  | zero =>
      intro t h
      unfold ancChain chainStart at h
      cases hg : treeGetTopicById db topicId f with
      | error e => rw [hg] at h; exact absurd h (by simp)
      | ok o =>
          rw [hg] at h
          cases o with
          | none => exact absurd h (by simp)
          | some u =>
              cases h
              exact treeGet_mem hg
  | succ n ih =>
      intro t h
      obtain ⟨s, hs⟩ := ancChain_some_step h
      rw [ancChain_succ_of_some hs] at h
      exact parentStep_mem h

theorem pathLoop_collides (db : Store) (f : Bool) (t0 : Option Topic)
    (i j : Nat) (ti tj : Topic) (hij : i < j)
    (hci : ancChain db f t0 i = some ti)
    (hcj : ancChain db f t0 j = some tj) (hid : ti.id = tj.id) :
    ∀ (n k : Nat), k + n = j →
      ∀ (visited : List String) (path : List Topic) (fuel : Nat), n + 1 ≤ fuel →
      (∀ m, m < k → ∀ tm, ancChain db f t0 m = some tm → tm.id ∈ visited) →
      ∃ cid, getTopicPathLoop db f fuel (ancChain db f t0 k) visited path =
        some (.error (.circularReference cid)) := by
  intro n
  induction n with
  | zero =>
      intro k hk visited path fuel hfuel hinv
      have hkj : k = j := by omega
      subst hkj
      rw [hcj]
      cases fuel with
      | zero => omega
      | succ m =>
          have hmem : tj.id ∈ visited := by
            rw [← hid]
            exact hinv i hij ti hci
          refine ⟨tj.id, ?_⟩
          unfold getTopicPathLoop
          rw [if_pos hmem]
  | succ n ih =>
      intro k hk visited path fuel hfuel hinv
      have hkj : k < j := by omega
      obtain ⟨tk, hck⟩ := ancChain_some_mono (Nat.le_of_lt hkj) hcj
      obtain ⟨tk1, hck1⟩ := ancChain_some_mono (Nat.succ_le_of_lt hkj) hcj
      rw [hck]
      cases fuel with
      | zero => omega
      | succ fuel =>
          by_cases hmem : tk.id ∈ visited
          · refine ⟨tk.id, ?_⟩
            unfold getTopicPathLoop
            rw [if_pos hmem]
          · have hstep : ancChain db f t0 (k + 1) = parentStep db f tk :=
              ancChain_succ_of_some hck
            have htr : strTruthy tk.parentTopicId = true := by
              apply parentStep_truthy (u := tk1)
              rw [← hstep]
              exact hck1
            have hrec := ih (k + 1) (by omega) (tk.id :: visited) (tk :: path) fuel
              (by omega)
              (by
                intro m hm tm hctm
                rcases Nat.lt_or_ge m k with hmk | hmk
                · exact List.mem_cons_of_mem _ (hinv m hmk tm hctm)
                · have : m = k := by omega
                  subst this
                  rw [hctm] at hck
                  cases hck
                  exact List.mem_cons_self _ _)
            obtain ⟨cid, hcid⟩ := hrec
            refine ⟨cid, ?_⟩
            unfold getTopicPathLoop
            rw [if_neg hmem, if_pos htr, ← hstep]
            exact hcid

/-- C6: whenever the ancestor chain of a starting topic (successive
parentTopicId resolutions under the given onlyLatest policy) revisits an
already-visited topic id, `getTopicPath` terminates within store-size
fuel and fails with a circular-reference error rather than looping
forever. -/
theorem c6_circular_reference :
    ∀ (db : Store) (topicId : String) (f : Bool),
      (∃ i j ti tj, i < j ∧
        ancChain db f (chainStart db topicId f) i = some ti ∧
        ancChain db f (chainStart db topicId f) j = some tj ∧ ti.id = tj.id) →
      ∃ cid, getTopicPath db topicId f (db.length + 1) =
        some (.error (.circularReference cid)) := by
  intro db topicId f hcol
  obtain ⟨i, j, ti, tj, hij, hci, hcj, hid⟩ := hcol
  -- Find a collision whose second index is at most the store size.
  have hsmall : ∃ i2 j2 ti2 tj2, i2 < j2 ∧ j2 ≤ db.length ∧
      ancChain db f (chainStart db topicId f) i2 = some ti2 ∧
      ancChain db f (chainStart db topicId f) j2 = some tj2 ∧ ti2.id = tj2.id := by
    rcases le_or_lt j db.length with hj | hj
    · exact ⟨i, j, ti, tj, hij, hj, hci, hcj, hid⟩
    · -- the chain is defined on 0..db.length, pigeonhole a collision there
      have hdef : ∀ m, m ≤ db.length → ∃ tm,
          ancChain db f (chainStart db topicId f) m = some tm := by
        intro m hm
        exact ancChain_some_mono (by omega) hcj
      set gid : Nat → String := fun m =>
        (Option.map Topic.id (ancChain db f (chainStart db topicId f) m)).getD ""
        with hgid
      have hmaps : ∀ m ∈ Finset.range (db.length + 1),
          gid m ∈ (db.map Topic.id).toFinset := by
        intro m hm
        obtain ⟨tm, htm⟩ := hdef m (by simpa using Nat.lt_succ_iff.mp (Finset.mem_range.mp hm))
        rw [hgid]
        simp only [htm, Option.map_some, Option.getD_some]
        simp only [List.mem_toFinset, List.mem_map]
        exact ⟨tm, ancChain_mem htm, rfl⟩
      have hcard : (db.map Topic.id).toFinset.card < (Finset.range (db.length + 1)).card := by
        have h1 : (db.map Topic.id).toFinset.card ≤ (db.map Topic.id).length :=
          (db.map Topic.id).toFinset_card_le
        simp only [List.length_map, Finset.card_range] at h1 ⊢
        omega
      obtain ⟨a, ha, b, hb, hab, heq⟩ :=
        Finset.exists_ne_map_eq_of_card_lt_of_maps_to hcard hmaps
      have ha2 : a ≤ db.length := Nat.lt_succ_iff.mp (Finset.mem_range.mp ha)
      have hb2 : b ≤ db.length := Nat.lt_succ_iff.mp (Finset.mem_range.mp hb)
      obtain ⟨ta, hta⟩ := hdef a ha2
      obtain ⟨tb, htb⟩ := hdef b hb2
      have hid2 : ta.id = tb.id := by
        rw [hgid] at heq
        simp only [hta, htb, Option.map_some, Option.getD_some] at heq
        exact heq
      rcases Nat.lt_or_ge a b with hab2 | hab2
      · exact ⟨a, b, ta, tb, hab2, hb2, hta, htb, hid2⟩
      · have : b < a := by omega
        exact ⟨b, a, tb, ta, this, ha2, htb, hta, hid2.symm⟩
  obtain ⟨i2, j2, ti2, tj2, hij2, hj2, hci2, hcj2, hid2⟩ := hsmall
  unfold getTopicPath
  cases hg : treeGetTopicById db topicId f with
  | error e =>
      exfalso
      have : chainStart db topicId f = none := by
        unfold chainStart
        rw [hg]
      rw [this] at hci2
      have : ∀ m, ancChain db f (none : Option Topic) m = none := by
        intro m
        induction m with
        | zero => rfl
        | succ m ihm => unfold ancChain; rw [ihm]
      rw [this i2] at hci2
      exact absurd hci2 (by simp)
  | ok o =>
      have hcs : chainStart db topicId f = o := by
        unfold chainStart
        rw [hg]
      rw [hcs] at hci2 hcj2
      have := pathLoop_collides db f o i2 j2 ti2 tj2 hij2 hci2 hcj2 hid2
        j2 0 (by omega) [] [] (db.length + 1) (by omega)
        (by intro m hm tm _; omega)
      simpa using this

/-- Store whose two topics are each other's parent: the ancestor chain
from `a` is a, b, a, revisiting id `a` at index 2. -/
def c6db : Store :=
  [mkTopic "a" "a" (some "b") 1 true, mkTopic "b" "b" (some "a") 1 true]

theorem c6_witness :
    ∃ cid, getTopicPath c6db "a" true (c6db.length + 1) =
      some (.error (.circularReference cid)) :=
  c6_circular_reference c6db "a" true
    ⟨0, 2, mkTopic "a" "a" (some "b") 1 true, mkTopic "a" "a" (some "b") 1 true,
      by omega, by rfl, by rfl, rfl⟩

/-! ## BFS parent-map chains

`ChainTo parent s v n` says the parent-pointer walk from `v` reaches `s`
in exactly `n` hops, through nonempty non-start ids; it abstracts the
state of `getDistance` / `buildPath` walks produced by BFS. -/

inductive ChainTo (parent : List (String × String)) (s : String) : String → Nat → Prop
  | refl : ChainTo parent s s 0
  | step {v u : String} {n : Nat} : v ≠ s → v ≠ "" → parent.lookup v = some u →
      ChainTo parent s u n → ChainTo parent s v (n + 1)

theorem lookup_mem {l : List (String × String)} {k v : String}
    (h : l.lookup k = some v) : (k, v) ∈ l := by
  induction l with
  | nil => exact absurd h (by simp)
  | cons kv rest ih =>
      rw [List.lookup] at h
      cases hk : (k == kv.1) with
      | true =>
          rw [hk] at h
          dsimp only at h
          cases h
          have hk2 : k = kv.1 := by simpa using hk
          rw [hk2]
          simp
      | false =>
          rw [hk] at h
          dsimp only at h
          exact List.mem_cons_of_mem _ (ih h)

theorem lookup_cons_ne {l : List (String × String)} {w c k : String} (h : k ≠ w) :
    ((w, c) :: l).lookup k = l.lookup k := by
  rw [List.lookup]
  rw [show (k == w) = false from beq_eq_false_iff_ne.mpr h]

/-- Chains are preserved when the parent map gains a key outside the set
`V` that contains all current keys, values and the chain's endpoint. -/
theorem ChainTo_mono {parent : List (String × String)} {s v : String} {n : Nat}
    {V : List String} {w c : String}
    (h : ChainTo parent s v n)
    (hsub : ∀ kv ∈ parent, kv.1 ∈ V ∧ kv.2 ∈ V)
    (hnw : w ∉ V) (hv : v ∈ V) :
    ChainTo ((w, c) :: parent) s v n := by
  induction h with
  | refl => exact ChainTo.refl
  | step hne hnn hlk hprev ih =>
      rename_i v2 u2 n2
      have hv2 : v2 ∈ V := hv
      have hu2 : u2 ∈ V := (hsub _ (lookup_mem hlk)).2
      have hvw : v2 ≠ w := fun he => hnw (he ▸ hv2)
      exact ChainTo.step hne hnn (by rw [lookup_cons_ne hvw]; exact hlk) (ih hu2)

theorem ChainTo_unique {parent : List (String × String)} {s : String} :
    ∀ {v : String} {n m : Nat}, ChainTo parent s v n → ChainTo parent s v m → n = m := by
  intro v n m h1
  induction h1 generalizing m with
  | refl =>
      intro h2
      cases h2 with
      | refl => rfl
      | step hne _ _ _ => exact absurd rfl hne
  | step hne hnn hlk hprev ih =>
      intro h2
      cases h2 with
      | refl => exact absurd rfl hne
      | step hne2 hnn2 hlk2 hprev2 =>
          rw [hlk] at hlk2
          cases hlk2
          rw [ih hprev2]

/-- `getDistance` walks a chain to its end and reports its length. -/
theorem getDistanceAux_of_chain {parent : List (String × String)} {s v : String}
    {n : Nat} (h : ChainTo parent s v n) :
    ∀ (acc fuel : Nat), n ≤ fuel →
      getDistanceAux parent s fuel v acc = some (acc + n) := by
  induction h with
  | refl =>
      intro acc fuel _
      cases fuel with
      | zero => simp [getDistanceAux]
      | succ m => simp [getDistanceAux]
  | step hne hnn hlk hprev ih =>
      rename_i v2 u2 n2
      intro acc fuel hfuel
      cases fuel with
      | zero => omega
      | succ fuel =>
          rw [getDistanceAux, if_neg (by simp [hne, hnn]),
            show lookupD parent v2 = u2 by simp [lookupD, hlk]]
          rw [ih (acc + 1) fuel (by omega)]
          congr 1
          omega

theorem getDistance_of_chain {parent : List (String × String)} {s v : String}
    {n : Nat} (h : ChainTo parent s v n) (fuel : Nat) (hfuel : n ≤ fuel) :
    getDistance parent s v fuel = some n := by
  unfold getDistance
  rw [getDistanceAux_of_chain h 0 fuel hfuel]
  congr 1
  omega

/-- The id walk of `buildPath` terminates on every chain. -/
theorem buildPathIdsAux_some_of_chain {parent : List (String × String)} {s : String}
    (hps : parent.lookup s = none) :
    ∀ {v : String} {n : Nat}, ChainTo parent s v n →
      ∀ (acc : List String) (fuel : Nat), n + 1 ≤ fuel →
      ∃ out, buildPathIdsAux parent s fuel v acc = some out := by
  intro v n h
  induction h with
  | refl =>
      intro acc fuel hfuel
      cases fuel with
      | zero => omega
      | succ fuel =>
          by_cases hse : s = ""
          · exact ⟨acc, by rw [buildPathIdsAux, if_pos hse]⟩
          · refine ⟨s :: acc, ?_⟩
            rw [buildPathIdsAux, if_neg hse,
              show lookupD parent s = "" by simp [lookupD, hps]]
            have hsne : ("" : String) ≠ s := fun he => hse he.symm
            rw [if_neg hsne]
            cases fuel with
            | zero => simp [buildPathIdsAux]
            | succ fuel => simp [buildPathIdsAux]
  | step hne hnn hlk hprev ih =>
      rename_i v2 u2 n2
      intro acc fuel hfuel
      cases fuel with
      | zero => omega
      | succ fuel =>
          rw [buildPathIdsAux, if_neg hnn,
            show lookupD parent v2 = u2 by simp [lookupD, hlk]]
          by_cases hus : u2 = s
          · exact ⟨s :: v2 :: acc, by rw [if_pos hus]⟩
          · rw [if_neg hus]
            exact ih (v2 :: acc) fuel (by omega)

/-- On a chain from a nonempty start id, the id walk of `buildPath`
returns the start-first id list along the chain. -/
theorem buildPathIdsAux_of_chain {parent : List (String × String)} {s : String}
    (hps : parent.lookup s = none) (hs : s ≠ "") :
    ∀ {v : String} {n : Nat}, ChainTo parent s v n →
      ∀ (acc : List String) (fuel : Nat), n + 1 ≤ fuel →
      ∃ ids, buildPathIdsAux parent s fuel v acc = some (ids ++ acc) ∧
        ids.length = n + 1 ∧ ids.head? = some s ∧ ids.getLast? = some v := by
  intro v n h
  induction h with
  | refl =>
      intro acc fuel hfuel
      cases fuel with
      | zero => omega
      | succ fuel =>
          refine ⟨[s], ?_, by simp, by simp, by simp⟩
          rw [buildPathIdsAux, if_neg hs,
            show lookupD parent s = "" by simp [lookupD, hps]]
          have hsne : ("" : String) ≠ s := fun he => hs he.symm
          rw [if_neg hsne]
          cases fuel with
          | zero => simp [buildPathIdsAux]
          | succ fuel => simp [buildPathIdsAux]
  | step hne hnn hlk hprev ih =>
      rename_i v2 u2 n2
      intro acc fuel hfuel
      cases fuel with
      | zero => omega
      | succ fuel =>
          rw [buildPathIdsAux, if_neg hnn,
            show lookupD parent v2 = u2 by simp [lookupD, hlk]]
          by_cases hus : u2 = s
          · have hn2 : n2 = 0 := by
              cases hprev with
              | refl => rfl
              | step hne2 _ _ _ => exact absurd hus hne2
            rw [if_pos hus]
            exact ⟨[s, v2], by simp, by simp [hn2], by simp, by simp⟩
          · rw [if_neg hus]
            obtain ⟨ids, hids, hlen, hhead, hlast⟩ := ih (v2 :: acc) fuel (by omega)
            refine ⟨ids ++ [v2], ?_, ?_, ?_, ?_⟩
            · rw [hids]
              simp
            · simp [hlen]
            · rw [List.head?_append_of_ne_nil]
              · exact hhead
              · intro hnil
                rw [hnil] at hhead
                exact absurd hhead (by simp)
            · simp

/-- A parent-map walk that dead-ends at the empty id instead of reaching
the start (possible only when a stored topic has an empty id). -/
inductive ChainDead (parent : List (String × String)) (s : String) : String → Nat → Prop
  | base : ChainDead parent s "" 0
  | step {v u : String} {n : Nat} : v ≠ s → v ≠ "" → parent.lookup v = some u →
      ChainDead parent s u n → ChainDead parent s v (n + 1)

theorem ChainDead_mono {parent : List (String × String)} {s v : String} {n : Nat}
    {V : List String} {w c : String}
    (h : ChainDead parent s v n)
    (hsub : ∀ kv ∈ parent, kv.1 ∈ V ∧ kv.2 ∈ V)
    (hnw : w ∉ V) :
    ChainDead ((w, c) :: parent) s v n := by
  induction h with
  | base => exact ChainDead.base
  | step hne hnn hlk hprev ih =>
      rename_i v2 u2 n2
      have hv2 : v2 ∈ V := (hsub _ (lookup_mem hlk)).1
      have hvw : v2 ≠ w := fun he => hnw (he ▸ hv2)
      exact ChainDead.step hne hnn (by rw [lookup_cons_ne hvw]; exact hlk) ih

theorem getDistanceAux_of_dead {parent : List (String × String)} {s v : String}
    {n : Nat} (h : ChainDead parent s v n) :
    ∀ (acc fuel : Nat), n ≤ fuel →
      getDistanceAux parent s fuel v acc = some (acc + n) := by
  induction h with
  | base =>
      intro acc fuel _
      cases fuel with
      | zero => simp [getDistanceAux]
      | succ m => simp [getDistanceAux]
  | step hne hnn hlk hprev ih =>
      rename_i v2 u2 n2
      intro acc fuel hfuel
      cases fuel with
      | zero => omega
      | succ fuel =>
          rw [getDistanceAux, if_neg (by simp [hne, hnn]),
            show lookupD parent v2 = u2 by simp [lookupD, hlk]]
          rw [ih (acc + 1) fuel (by omega)]
          congr 1
          omega

theorem buildPathIdsAux_some_of_dead {parent : List (String × String)} {s : String} :
    ∀ {v : String} {n : Nat}, ChainDead parent s v n →
      ∀ (acc : List String) (fuel : Nat), n + 1 ≤ fuel →
      ∃ out, buildPathIdsAux parent s fuel v acc = some out := by
  intro v n h
  induction h with
  | base =>
      intro acc fuel hfuel
      cases fuel with
      | zero => omega
      | succ fuel => exact ⟨acc, by rw [buildPathIdsAux, if_pos rfl]⟩
  | step hne hnn hlk hprev ih =>
      rename_i v2 u2 n2
      intro acc fuel hfuel
      cases fuel with
      | zero => omega
      | succ fuel =>
          rw [buildPathIdsAux, if_neg hnn,
            show lookupD parent v2 = u2 by simp [lookupD, hlk]]
          by_cases hus : u2 = s
          · exact ⟨s :: v2 :: acc, by rw [if_pos hus]⟩
          · rw [if_neg hus]
            exact ih (v2 :: acc) fuel (by omega)

theorem neighbors_mem {db : Store} {t : Topic} {f : Bool} :
    ∀ n ∈ getTopicNeighbors db t f, n ∈ db := by
  intro n hn
  unfold getTopicNeighbors at hn
  simp only [List.mem_append] at hn
  rcases hn with (hn | hn) | hn
  · -- parent part
    cases hp : t.parentTopicId with
    | none => rw [hp] at hn; simp at hn
    | some p =>
        rw [hp] at hn
        dsimp only at hn
        by_cases he : p = ""
        · rw [if_pos he] at hn
          simp at hn
        · rw [if_neg he] at hn
          cases hg : spGetTopicById db p f with
          | some q =>
              rw [hg] at hn
              simp at hn
              rw [hn]
              exact spGet_mem hg
          | none =>
              rw [hg] at hn
              cases hf : f with
              | false => rw [hf] at hn; simp at hn
              | true =>
                  rw [hf] at hn
                  dsimp only at hn
                  cases hh : (findBaseLatest db p).head? with
                  | none => rw [hh] at hn; simp at hn
                  | some q =>
                      rw [hh] at hn
                      simp at hn
                      rw [hn]
                      exact List.mem_of_mem_filter (head?_mem hh)
  · exact List.mem_of_mem_filter hn
  · by_cases hd : t.id ≠ baseOrId t
    · rw [if_pos hd] at hn
      exact List.mem_of_mem_filter hn
    · rw [if_neg hd] at hn
      simp at hn

theorem lookup_cons_self {l : List (String × String)} {k c : String} :
    ((k, c) :: l).lookup k = some c := by
  rw [List.lookup]
  rw [show (k == k) = true from beq_self_eq_true k]

/-- Loop invariant of the BFS over an arbitrary store: a well-formed
queue of visited ids, a visited set of distinct stored ids containing the
start, and a parent map over visited ids whose walks from every visited
id terminate (reaching the start or dead-ending at an empty id) within
the size of the map. -/
structure StInv (db : Store) (start : Topic) (st : BfsState) : Prop where
  hq : st.queue.head ≤ st.queue.items.length
  hqv : ∀ v ∈ st.queue.toList, v ∈ st.visited
  hvs : start.id ∈ st.visited
  hvn : st.visited.Nodup
  hvm : ∀ v ∈ st.visited, v ∈ db.map Topic.id
  hpk : ∀ kv ∈ st.parent, kv.1 ∈ st.visited ∧ kv.2 ∈ st.visited
  hps : st.parent.lookup start.id = none
  hch : ∀ v ∈ st.visited, ∃ n, n ≤ st.parent.length ∧
    (ChainTo st.parent start.id v n ∨ ChainDead st.parent start.id v n)

theorem addNeighbors_inv (db : Store) (start : Topic) (cur : String) :
    ∀ (ns : List Topic) (st : BfsState),
      StInv db start st →
      cur ∈ st.visited →
      (∀ t ∈ ns, t.id ∈ db.map Topic.id) →
      StInv db start (addNeighbors cur ns st) ∧
      (∀ v ∈ st.visited, v ∈ (addNeighbors cur ns st).visited) ∧
      (∀ t ∈ ns, t.id ∈ (addNeighbors cur ns st).visited) ∧
      ((addNeighbors cur ns st).visited.length + st.queue.toList.length =
        st.visited.length + (addNeighbors cur ns st).queue.toList.length) ∧
      (addNeighbors cur ns st).nodesExplored = st.nodesExplored ∧
      (addNeighbors cur ns st).maxDepth = st.maxDepth := by
  intro ns
  induction ns with
  | nil =>
      intro st I hcur _
      exact ⟨I, fun v hv => hv, fun t ht => absurd ht (List.not_mem_nil t), rfl, rfl, rfl⟩
  | cons n rest ih =>
      intro st I hcur hns
      by_cases hc : st.visited.contains n.id
      · have hmem : n.id ∈ st.visited := by simpa using hc
        rw [show addNeighbors cur (n :: rest) st = addNeighbors cur rest st by
          rw [addNeighbors, if_pos hc]]
        obtain ⟨I2, hmono, hrest, hcount, hne, hmd⟩ :=
          ih st I hcur (fun t ht => hns t (List.mem_cons_of_mem _ ht))
        refine ⟨I2, hmono, ?_, hcount, hne, hmd⟩
        intro t ht
        rcases List.mem_cons.mp ht with he | ht2
        · rw [he]
          exact hmono _ hmem
        · exact hrest t ht2
      · have hnv : n.id ∉ st.visited := by simpa using hc
        set st2 : BfsState :=
          { st with
            visited := n.id :: st.visited
            parent := (n.id, cur) :: st.parent
            queue := st.queue.enqueue n.id } with hst2
        have hstep : addNeighbors cur (n :: rest) st = addNeighbors cur rest st2 := by
          rw [addNeighbors, if_neg hc]
        have hnstart : n.id ≠ start.id := fun he => hnv (he ▸ I.hvs)
        have I2 : StInv db start st2 := by
          refine ⟨?_, ?_, ?_, ?_, ?_, ?_, ?_, ?_⟩
          · exact Queue.head_enqueue _ _ I.hq
          · intro v hv
            rw [hst2] at hv ⊢
            dsimp only at hv ⊢
            rw [Queue.toList_enqueue _ _ I.hq] at hv
            rcases List.mem_append.mp hv with hv | hv
            · exact List.mem_cons_of_mem _ (I.hqv v hv)
            · simp at hv
              rw [hv]
              exact List.mem_cons_self _ _
          · exact List.mem_cons_of_mem _ I.hvs
          · exact List.Nodup.cons hnv I.hvn
          · intro v hv
            rcases List.mem_cons.mp hv with he | hv2
            · rw [he]
              exact hns n (List.mem_cons_self _ _)
            · exact I.hvm v hv2
          · intro kv hkv
            rcases List.mem_cons.mp hkv with he | hkv2
            · rw [he]
              exact ⟨List.mem_cons_self _ _, List.mem_cons_of_mem _ hcur⟩
            · obtain ⟨h1, h2⟩ := I.hpk kv hkv2
              exact ⟨List.mem_cons_of_mem _ h1, List.mem_cons_of_mem _ h2⟩
          · rw [lookup_cons_ne (fun he => hnv (by rw [← he]; exact I.hvs))]
            exact I.hps
          · intro v hv
            rcases List.mem_cons.mp hv with he | hv2
            · -- the freshly visited id
              rw [he]
              by_cases hne : n.id = ""
              · refine ⟨0, by omega, Or.inr ?_⟩
                rw [hne]
                exact ChainDead.base
              · obtain ⟨m, hm, hcz⟩ := I.hch cur hcur
                rcases hcz with hlive | hdead
                · refine ⟨m + 1, by simp [hst2]; omega, Or.inl ?_⟩
                  exact ChainTo.step hnstart hne lookup_cons_self
                    (ChainTo_mono hlive (fun kv hkv => I.hpk kv hkv) hnv hcur)
                · refine ⟨m + 1, by simp [hst2]; omega, Or.inr ?_⟩
                  exact ChainDead.step hnstart hne lookup_cons_self
                    (ChainDead_mono hdead (fun kv hkv => I.hpk kv hkv) hnv)
            · obtain ⟨m, hm, hcz⟩ := I.hch v hv2
              rcases hcz with hlive | hdead
              · exact ⟨m, by simp [hst2]; omega, Or.inl
                  (ChainTo_mono hlive (fun kv hkv => I.hpk kv hkv) hnv hv2)⟩
              · exact ⟨m, by simp [hst2]; omega, Or.inr
                  (ChainDead_mono hdead (fun kv hkv => I.hpk kv hkv) hnv)⟩
        obtain ⟨I3, hmono, hrest, hcount, hne2, hmd⟩ :=
          ih st2 I2 (List.mem_cons_of_mem _ hcur)
            (fun t ht => hns t (List.mem_cons_of_mem _ ht))
        rw [hstep]
        refine ⟨I3, ?_, ?_, ?_, hne2, hmd⟩
        · intro v hv
          exact hmono v (List.mem_cons_of_mem _ hv)
        · intro t ht
          rcases List.mem_cons.mp ht with he | ht2
          · rw [he]
            exact hmono n.id (List.mem_cons_self _ _)
          · exact hrest t ht2
        · have hq2 : st2.queue.toList.length = st.queue.toList.length + 1 := by
            rw [hst2]
            dsimp only
            rw [Queue.toList_enqueue _ _ I.hq]
            simp
          have hv2 : st2.visited.length = st.visited.length + 1 := by
            rw [hst2]
            simp
          rw [hq2, hv2] at hcount
          omega

theorem nodup_subset_length {l l2 : List String} (hn : l.Nodup)
    (hs : ∀ x ∈ l, x ∈ l2) : l.length ≤ l2.length := by
  have h1 : l.toFinset.card = l.length := List.toFinset_card_of_nodup hn
  have h2 : l.toFinset ⊆ l2.toFinset := by
    intro x hx
    simp only [List.mem_toFinset] at hx ⊢
    exact hs x hx
  calc l.length = l.toFinset.card := h1.symm
    _ ≤ l2.toFinset.card := Finset.card_le_card h2
    _ ≤ l2.length := l2.toFinset_card_le

/-- One unfolding of the BFS loop on a nonempty queue. -/
theorem bfsLoop_succ_nonempty (db : Store) (f : Bool) (start endT : Topic)
    (fuel : Nat) (st : BfsState) (hemp : st.queue.isEmpty = false) :
    bfsLoop db f start endT (fuel + 1) st =
      (if st.queue.dequeue.1.getD "" = endT.id then
        match getDistance st.parent start.id endT.id (st.parent.length + 1),
            buildPath db f st.parent start.id endT.id (st.parent.length + 1) with
        | some d, some p =>
            some ⟨p, (d : Int), true, st.nodesExplored + 1, max st.maxDepth d⟩
        | _, _ => none
      else
        match spGetTopicById db (st.queue.dequeue.1.getD "") f with
        | none =>
            bfsLoop db f start endT fuel
              { st with
                queue := st.queue.dequeue.2
                nodesExplored := st.nodesExplored + 1 }
        | some currentTopic =>
            match getDistance st.parent start.id (st.queue.dequeue.1.getD "")
                (st.parent.length + 1) with
            | none => none
            | some curDist =>
                bfsLoop db f start endT fuel
                  (addNeighbors (st.queue.dequeue.1.getD "")
                    (getTopicNeighbors db currentTopic f)
                    { queue := st.queue.dequeue.2
                      visited := st.visited
                      parent := st.parent
                      nodesExplored := st.nodesExplored + 1
                      maxDepth := max st.maxDepth curDist })) := by
  rw [bfsLoop]
  rw [if_neg (by rw [hemp]; exact Bool.false_ne_true)]

/-- Termination and explored-node bound of the BFS loop. -/
theorem bfsLoop_term (db : Store) (f : Bool) (start endT : Topic) :
    ∀ (fuel : Nat) (st : BfsState),
      StInv db start st →
      st.queue.toList.length + (db.length - st.visited.length) + 1 ≤ fuel →
      ∃ r, bfsLoop db f start endT fuel st = some r ∧
        r.nodesExplored ≤ st.nodesExplored + st.queue.toList.length +
          (db.length - st.visited.length) := by
  intro fuel
  induction fuel with
  | zero =>
      intro st _ hF
      omega
  | succ fuel ih =>
      intro st I hF
      have hvle : st.visited.length ≤ db.length := by
        have := nodup_subset_length I.hvn I.hvm
        simpa using this
      by_cases hemp : st.queue.isEmpty
      · refine ⟨⟨[], -1, false, st.nodesExplored, st.maxDepth⟩, ?_, ?_⟩
        · rw [bfsLoop, if_pos hemp]
        · show st.nodesExplored ≤ _
          omega
      · have hempf : st.queue.isEmpty = false := by
          rw [Bool.eq_false_iff]
          exact hemp
        have hlne : st.queue.toList ≠ [] := by
          rw [Queue.isEmpty_spec] at hempf
          intro h
          rw [h] at hempf
          exact absurd hempf (by simp)
        obtain ⟨c, rest, hcr⟩ := List.exists_cons_of_ne_nil hlne
        obtain ⟨hd, htl, hwf2⟩ := Queue.dequeue_spec st.queue I.hq
        have hcur : st.queue.dequeue.1.getD "" = c := by
          rw [hd, hcr]
          rfl
        have hcv : c ∈ st.visited := I.hqv c (by rw [hcr]; exact List.mem_cons_self _ _)
        have hq1len : st.queue.dequeue.2.toList.length + 1 = st.queue.toList.length := by
          rw [htl, hcr]
          rfl
        rw [bfsLoop_succ_nonempty db f start endT fuel st hempf, hcur]
        obtain ⟨nc, hnc, hcz⟩ := I.hch c hcv
        have hgd : getDistance st.parent start.id c (st.parent.length + 1) = some nc := by
          rcases hcz with hlive | hdead
          · exact getDistance_of_chain hlive _ (by omega)
          · unfold getDistance
            rw [getDistanceAux_of_dead hdead 0 _ (by omega)]
            congr 1
            omega
        by_cases hce : c = endT.id
        · rw [if_pos hce]
          rw [← hce]
          rw [hgd]
          have hbp : ∃ out, buildPathIds st.parent start.id c (st.parent.length + 1) =
              some out := by
            unfold buildPathIds
            rcases hcz with hlive | hdead
            · exact buildPathIdsAux_some_of_chain I.hps hlive [] _ (by omega)
            · exact buildPathIdsAux_some_of_dead hdead [] _ (by omega)
          obtain ⟨out, hout⟩ := hbp
          have hbp2 : buildPath db f st.parent start.id c (st.parent.length + 1) =
              some (out.filterMap (fun i => spGetTopicById db i f)) := by
            unfold buildPath
            rw [hout]
            rfl
          rw [hbp2]
          refine ⟨_, rfl, ?_⟩
          show st.nodesExplored + 1 ≤ _
          omega
        · rw [if_neg hce]
          cases hres : spGetTopicById db c f with
          | none =>
              have I2 : StInv db start
                  { st with
                    queue := st.queue.dequeue.2
                    nodesExplored := st.nodesExplored + 1 } := by
                refine ⟨hwf2, ?_, I.hvs, I.hvn, I.hvm, I.hpk, I.hps, I.hch⟩
                intro v hv
                rw [show ({ st with
                    queue := st.queue.dequeue.2
                    nodesExplored := st.nodesExplored + 1 } : BfsState).queue =
                  st.queue.dequeue.2 from rfl, htl] at hv
                exact I.hqv v (List.mem_of_mem_tail hv)
              obtain ⟨r, hr, hrb⟩ := ih _ I2 (by
                show st.queue.dequeue.2.toList.length +
                  (db.length - st.visited.length) + 1 ≤ fuel
                omega)
              refine ⟨r, hr, ?_⟩
              have hrb2 : r.nodesExplored ≤ st.nodesExplored + 1 +
                  st.queue.dequeue.2.toList.length +
                  (db.length - st.visited.length) := hrb
              omega
          | some currentTopic =>
              rw [hgd]
              set st1 : BfsState :=
                { queue := st.queue.dequeue.2
                  visited := st.visited
                  parent := st.parent
                  nodesExplored := st.nodesExplored + 1
                  maxDepth := max st.maxDepth nc } with hst1
              have I1 : StInv db start st1 := by
                refine ⟨hwf2, ?_, I.hvs, I.hvn, I.hvm, I.hpk, I.hps, I.hch⟩
                intro v hv
                rw [show st1.queue = st.queue.dequeue.2 from rfl, htl] at hv
                exact I.hqv v (List.mem_of_mem_tail hv)
              have hns : ∀ t ∈ getTopicNeighbors db currentTopic f,
                  t.id ∈ db.map Topic.id := by
                intro t ht
                exact List.mem_map_of_mem Topic.id (neighbors_mem t ht)
              obtain ⟨I3, hmono, hall, hcount, hne3, hmd3⟩ :=
                addNeighbors_inv db start c (getTopicNeighbors db currentTopic f) st1
                  I1 hcv hns
              set st3 := addNeighbors c (getTopicNeighbors db currentTopic f) st1 with hst3
              have hv13 : st1.visited.length ≤ st3.visited.length := by
                apply nodup_subset_length I1.hvn
                intro x hx
                exact hmono x hx
              have hv3le : st3.visited.length ≤ db.length := by
                have := nodup_subset_length I3.hvn I3.hvm
                simpa using this
              have hsv1 : st1.visited.length = st.visited.length := rfl
              have hq1 : st1.queue.toList.length + 1 = st.queue.toList.length := hq1len
              have hfuel3 : st3.queue.toList.length +
                  (db.length - st3.visited.length) + 1 ≤ fuel := by
                omega
              obtain ⟨r, hr, hrb⟩ := ih st3 I3 hfuel3
              refine ⟨r, hr, ?_⟩
              have hne1 : st3.nodesExplored = st.nodesExplored + 1 := hne3
              omega

/-- C5: on every finite topic store — including stores whose parent and
child pointers form a cycle — `findShortestPath` terminates within fuel
`db.length + 1`: because the visited set is checked and updated before a
neighbor is enqueued, each topic id is enqueued at most once, so the main
loop performs at most one dequeue per stored topic; the reported
`nodesExplored` dequeue count is at most the number of stored topics. -/
theorem c5_bfs_terminates :
    ∀ (db : Store) (s e : String) (f : Bool),
      ∃ r, findShortestPath db s e f (db.length + 1) = some r ∧
        r.nodesExplored ≤ db.length := by
  intro db s e f
  unfold findShortestPath
  cases hs : spGetTopicById db s f with
  | none =>
      refine ⟨⟨[], -1, false, 0, 0⟩, ?_, Nat.zero_le _⟩
      rfl
  | some startT =>
      cases he : spGetTopicById db e f with
      | none =>
          refine ⟨⟨[], -1, false, 0, 0⟩, ?_, Nat.zero_le _⟩
          rfl
      | some endT =>
          have hmem : startT ∈ db := spGet_mem hs
          have hlen : 1 ≤ db.length := by
            cases db with
            | nil => exact absurd hmem (List.not_mem_nil startT)
            | cons a l => simp
          dsimp only
          by_cases hse : s = e
          · rw [if_pos hse]
            exact ⟨⟨[startT], 0, true, 1, 0⟩, rfl, hlen⟩
          · rw [if_neg hse]
            have I0 : StInv db startT
                ⟨Queue.empty.enqueue startT.id, [startT.id], [], 0, 0⟩ := by
              refine ⟨by simp [Queue.empty, Queue.enqueue], ?_, ?_, ?_, ?_, ?_, rfl, ?_⟩
              · intro v hv
                simpa [Queue.empty, Queue.enqueue, Queue.toList] using hv
              · exact List.mem_cons_self _ _
              · simp
              · intro v hv
                simp at hv
                rw [hv]
                exact List.mem_map_of_mem Topic.id hmem
              · intro kv hkv
                exact absurd hkv (List.not_mem_nil kv)
              · intro v hv
                simp at hv
                rw [hv]
                exact ⟨0, by omega, Or.inl ChainTo.refl⟩
            obtain ⟨r, hr, hrb⟩ := bfsLoop_term db f startT endT (db.length + 1)
              ⟨Queue.empty.enqueue startT.id, [startT.id], [], 0, 0⟩ I0
              (by
                show (Queue.toList (Queue.enqueue Queue.empty startT.id)).length +
                  (db.length - 1) + 1 ≤ db.length + 1
                simp only [Queue.empty, Queue.enqueue, Queue.toList]
                simp
                omega)
            refine ⟨r, hr, ?_⟩
            have : (Queue.toList (Queue.enqueue Queue.empty startT.id)).length = 1 := by
              simp [Queue.empty, Queue.enqueue, Queue.toList]
            rw [show (⟨Queue.empty.enqueue startT.id, [startT.id], [], 0, 0⟩ :
                BfsState).nodesExplored = 0 from rfl] at hrb
            rw [show (⟨Queue.empty.enqueue startT.id, [startT.id], [], 0, 0⟩ :
                BfsState).queue = Queue.empty.enqueue startT.id from rfl] at hrb
            rw [show (⟨Queue.empty.enqueue startT.id, [startT.id], [], 0, 0⟩ :
                BfsState).visited = [startT.id] from rfl] at hrb
            rw [this] at hrb
            simp at hrb
            omega

/-! ## Claim C2: path validity

Under the data-model well-formedness assumptions (unique, nonempty ids)
every topic handled by BFS resolves back to itself, which lets the
parent-pointer chains carry their neighbor edges down to the returned
path. -/

theorem findById_of_mem {db : Store} (hnd : (db.map Topic.id).Nodup) :
    ∀ {t : Topic}, t ∈ db → findById db t.id = some t := by
  induction db with
  | nil =>
      intro t ht
      exact absurd ht (List.not_mem_nil t)
  | cons a l ih =>
      intro t ht
      rw [List.map_cons] at hnd
      rcases List.mem_cons.mp ht with he | ht2
      · rw [he]
        unfold findById
        rw [List.find?]
        rw [show (a.id == a.id) = true from beq_self_eq_true a.id]
      · have hne : a.id ≠ t.id := by
          intro hx
          have : t.id ∈ l.map Topic.id := List.mem_map_of_mem Topic.id ht2
          rw [← hx] at this
          exact (List.nodup_cons.mp hnd).1 this
        unfold findById
        rw [List.find?]
        rw [show (a.id == t.id) = false from beq_eq_false_iff_ne.mpr hne]
        exact ih (List.nodup_cons.mp hnd).2 ht2

theorem spGet_true_latest {db : Store} {i : String} {t : Topic}
    (h : spGetTopicById db i true = some t) : t.isLatest = true := by
  unfold spGetTopicById at h
  rw [if_pos rfl] at h
  cases hf : findById db i with
  | none =>
      rw [hf] at h
      exact absurd h (by simp)
  | some u =>
      rw [hf] at h
      dsimp only at h
      by_cases hu : u.isLatest
      · rw [if_pos hu] at h
        cases h
        exact hu
      · rw [if_neg hu] at h
        have hm : t ∈ findBaseLatest db u.baseTopicId := head?_mem h
        unfold findBaseLatest at hm
        have := (List.mem_filter.mp hm).2
        simp at this
        exact this.2

theorem spGet_stable {db : Store} {f : Bool} {t : Topic}
    (hnd : (db.map Topic.id).Nodup) (hmem : t ∈ db)
    (hlat : f = true → t.isLatest = true) :
    spGetTopicById db t.id f = some t := by
  unfold spGetTopicById
  cases f with
  | false =>
      simp only [Bool.false_eq_true, if_neg]
      exact findById_of_mem hnd hmem
  | true =>
      simp only [if_pos]
      rw [findById_of_mem hnd hmem]
      dsimp only
      rw [if_pos (hlat rfl)]

theorem neighbors_latest {db : Store} {t : Topic} {n : Topic}
    (hn : n ∈ getTopicNeighbors db t true) : n.isLatest = true := by
  unfold getTopicNeighbors at hn
  simp only [List.mem_append] at hn
  rcases hn with (hn | hn) | hn
  · cases hp : t.parentTopicId with
    | none => rw [hp] at hn; simp at hn
    | some p =>
        rw [hp] at hn
        dsimp only at hn
        by_cases he : p = ""
        · rw [if_pos he] at hn
          simp at hn
        · rw [if_neg he] at hn
          cases hg : spGetTopicById db p true with
          | some q =>
              rw [hg] at hn
              simp at hn
              rw [hn]
              exact spGet_true_latest hg
          | none =>
              rw [hg] at hn
              dsimp only at hn
              cases hh : (findBaseLatest db p).head? with
              | none => rw [hh] at hn; simp at hn
              | some q =>
                  rw [hh] at hn
                  simp at hn
                  rw [hn]
                  have hm : q ∈ findBaseLatest db p := head?_mem hh
                  unfold findBaseLatest at hm
                  have := (List.mem_filter.mp hm).2
                  simp at this
                  exact this.2
  · unfold findChildren at hn
    have := (List.mem_filter.mp hn).2
    simp at this
    exact this.2
  · by_cases hd : t.id ≠ baseOrId t
    · rw [if_pos hd] at hn
      unfold findChildren at hn
      have := (List.mem_filter.mp hn).2
      simp at this
      exact this.2
    · rw [if_neg hd] at hn
      simp at hn

/-- A parent-map chain whose every hop is justified by a neighbor edge
between the resolutions of its two ids. -/
inductive GoodChain (db : Store) (f : Bool) (parent : List (String × String))
    (s : String) : String → Nat → Prop
  | refl : GoodChain db f parent s s 0
  | step {v u : String} {n : Nat} : v ≠ s → v ≠ "" → parent.lookup v = some u →
      GoodChain db f parent s u n →
      (∃ tu tv, spGetTopicById db u f = some tu ∧ spGetTopicById db v f = some tv ∧
        tv ∈ getTopicNeighbors db tu f) →
      GoodChain db f parent s v (n + 1)

theorem GoodChain.toChainTo {db : Store} {f : Bool}
    {parent : List (String × String)} {s v : String} {n : Nat}
    (h : GoodChain db f parent s v n) : ChainTo parent s v n := by
  induction h with
  | refl => exact ChainTo.refl
  | step hne hnn hlk _ _ ih => exact ChainTo.step hne hnn hlk ih

theorem GoodChain_mono {db : Store} {f : Bool} {parent : List (String × String)}
    {s v : String} {n : Nat} {V : List String} {w c : String}
    (h : GoodChain db f parent s v n)
    (hsub : ∀ kv ∈ parent, kv.1 ∈ V ∧ kv.2 ∈ V)
    (hnw : w ∉ V) (hv : v ∈ V) :
    GoodChain db f ((w, c) :: parent) s v n := by
  induction h with
  | refl => exact GoodChain.refl
  | step hne hnn hlk hprev hedge ih =>
      rename_i v2 u2 n2
      have hv2 : v2 ∈ V := hv
      have hu2 : u2 ∈ V := (hsub _ (lookup_mem hlk)).2
      have hvw : v2 ≠ w := fun he => hnw (he ▸ hv2)
      exact GoodChain.step hne hnn (by rw [lookup_cons_ne hvw]; exact hlk) (ih hu2) hedge

/-- Extra BFS invariant for path validity: every visited id carries a
neighbor-justified chain back to the start. -/
def GoodInv (db : Store) (f : Bool) (start : Topic) (st : BfsState) : Prop :=
  ∀ v ∈ st.visited, ∃ n, n ≤ st.parent.length ∧
    GoodChain db f st.parent start.id v n

theorem filterMap_of_map_some {α β : Type} {g : α → Option β} :
    ∀ {ids : List α} {tps : List β}, ids.map g = tps.map some →
      ids.filterMap g = tps := by
  intro ids
  induction ids with
  | nil =>
      intro tps h
      cases tps with
      | nil => rfl
      | cons b bs => exact absurd h (by simp)
  | cons a as ih =>
      intro tps h
      cases tps with
      | nil => exact absurd h (by simp)
      | cons b bs =>
          simp only [List.map_cons, List.cons.injEq] at h
          rw [List.filterMap_cons, h.1]
          rw [ih h.2]

/-- On a neighbor-justified chain, `buildPath` reconstructs a start-first
topic path whose consecutive entries are neighbors. -/
theorem buildPath_goodChain {db : Store} {f : Bool}
    {parent : List (String × String)} {s : String}
    (hps : parent.lookup s = none) (hs : s ≠ "") {ts : Topic}
    (hstable : spGetTopicById db s f = some ts) :
    ∀ {v : String} {n : Nat}, GoodChain db f parent s v n →
      ∀ (acc : List String) (fuel : Nat), n + 1 ≤ fuel →
      ∃ ids tps, buildPathIdsAux parent s fuel v acc = some (ids ++ acc) ∧
        ids.map (fun i => spGetTopicById db i f) = tps.map some ∧
        tps.length = n + 1 ∧ tps.head? = some ts ∧
        tps.getLast? = spGetTopicById db v f ∧
        List.Chain' (fun a b => b ∈ getTopicNeighbors db a f) tps := by
  intro v n h
  induction h with
  | refl =>
      intro acc fuel hfuel
      cases fuel with
      | zero => omega
      | succ fuel =>
          refine ⟨[s], [ts], ?_, by simp [hstable], by simp, by simp, ?_, ?_⟩
          · rw [buildPathIdsAux, if_neg hs,
              show lookupD parent s = "" by simp [lookupD, hps]]
            have hsne : ("" : String) ≠ s := fun he => hs he.symm
            rw [if_neg hsne]
            cases fuel with
            | zero => simp [buildPathIdsAux]
            | succ fuel => simp [buildPathIdsAux]
          · simp [hstable]
          · simp
  | step hne hnn hlk hprev hedge ih =>
      rename_i v2 u2 n2
      obtain ⟨tu, tv, hgu, hgv, hed⟩ := hedge
      intro acc fuel hfuel
      cases fuel with
      | zero => omega
      | succ fuel =>
          rw [buildPathIdsAux, if_neg hnn,
            show lookupD parent v2 = u2 by simp [lookupD, hlk]]
          by_cases hus : u2 = s
          · have hn2 : n2 = 0 := by
              cases hprev with
              | refl => rfl
              | step hne2 _ _ _ _ => exact absurd hus hne2
            have htu : tu = ts := by
              rw [hus, hstable] at hgu
              exact (Option.some.inj hgu).symm
            rw [if_pos hus]
            refine ⟨[s, v2], [ts, tv], by simp, ?_, by simp [hn2], by simp, ?_, ?_⟩
            · simp [hstable, hgv]
            · simp [hgv]
            · refine List.chain'_cons.mpr ⟨?_, ?_⟩
              · rw [← htu]
                exact hed
              · simp
          · rw [if_neg hus]
            obtain ⟨ids, tps, hids, hmap, hlen, hhead, hlast, hchain⟩ :=
              ih (v2 :: acc) fuel (by omega)
            have htpsne : tps ≠ [] := by
              intro hx
              rw [hx] at hlen
              simp at hlen
            have hidsne : ids ≠ [] := by
              intro hx
              rw [hx] at hmap
              cases tps with
              | nil => exact htpsne rfl
              | cons b bs => exact absurd hmap.symm (by simp)
            refine ⟨ids ++ [v2], tps ++ [tv], ?_, ?_, ?_, ?_, ?_, ?_⟩
            · rw [hids]
              simp
            · simp only [List.map_append, hmap, List.map_cons, List.map_nil]
              simp [hgv]
            · simp [hlen]
            · rw [List.head?_append_of_ne_nil _ htpsne]
              exact hhead
            · simp [hgv]
            · rw [List.chain'_append]
              refine ⟨hchain, by simp, ?_⟩
              intro x hx y hy
              rw [hlast, hgu] at hx
              simp at hx hy
              rw [← hx, ← hy]
              exact hed

theorem addNeighbors_good (db : Store) (f : Bool) (start : Topic) (cur : String)
    (curTopic : Topic)
    (hnd : (db.map Topic.id).Nodup) (hne0 : ∀ t ∈ db, t.id ≠ "")
    (hres : spGetTopicById db cur f = some curTopic) :
    ∀ (ns : List Topic) (st : BfsState),
      StInv db start st → GoodInv db f start st → cur ∈ st.visited →
      (∀ t ∈ ns, t ∈ getTopicNeighbors db curTopic f) →
      GoodInv db f start (addNeighbors cur ns st) := by
  intro ns
  induction ns with
  | nil =>
      intro st _ G _ _
      exact G
  | cons n rest ih =>
      intro st I G hcur hsub
      by_cases hc : st.visited.contains n.id
      · rw [show addNeighbors cur (n :: rest) st = addNeighbors cur rest st from by
          rw [addNeighbors, if_pos hc]]
        exact ih st I G hcur (fun t ht => hsub t (List.mem_cons_of_mem _ ht))
      · have hnv : n.id ∉ st.visited := by simpa using hc
        set st2 : BfsState :=
          { st with
            visited := n.id :: st.visited
            parent := (n.id, cur) :: st.parent
            queue := st.queue.enqueue n.id } with hst2
        have hstep : addNeighbors cur (n :: rest) st = addNeighbors cur rest st2 := by
          rw [addNeighbors, if_neg hc]
        have hnsmem : n ∈ getTopicNeighbors db curTopic f :=
          hsub n (List.mem_cons_self _ _)
        have hmemn : n ∈ db := neighbors_mem n hnsmem
        have hI2 : StInv db start st2 := by
          have h1 := (addNeighbors_inv db start cur [n] st I hcur (fun t ht => by
            simp at ht
            rw [ht]
            exact List.mem_map_of_mem Topic.id hmemn)).1
          rwa [show addNeighbors cur [n] st = st2 from by
            rw [addNeighbors, if_neg hc]
            rfl] at h1
        have hG2 : GoodInv db f start st2 := by
          intro v hv
          rcases List.mem_cons.mp hv with he | hv2
          · rw [he]
            have hnid : n.id ≠ "" := hne0 n hmemn
            have hnst : n.id ≠ start.id := fun hx => hnv (by rw [hx]; exact I.hvs)
            have hstab : spGetTopicById db n.id f = some n := by
              apply spGet_stable hnd hmemn
              intro hf
              subst hf
              exact neighbors_latest hnsmem
            obtain ⟨m, hm, hg⟩ := G cur hcur
            refine ⟨m + 1, ?_, ?_⟩
            · show m + 1 ≤ ((n.id, cur) :: st.parent).length
              simp
              omega
            · exact GoodChain.step hnst hnid lookup_cons_self
                (GoodChain_mono hg (fun kv hkv => I.hpk kv hkv) hnv hcur)
                ⟨curTopic, n, hres, hstab, hnsmem⟩
          · obtain ⟨m, hm, hg⟩ := G v hv2
            refine ⟨m, ?_, ?_⟩
            · show m ≤ ((n.id, cur) :: st.parent).length
              simp
              omega
            · exact GoodChain_mono hg (fun kv hkv => I.hpk kv hkv) hnv hv2
        rw [hstep]
        exact ih st2 hI2 hG2 (List.mem_cons_of_mem _ hcur)
          (fun t ht => hsub t (List.mem_cons_of_mem _ ht))

/-- Path validity of the BFS loop: a successful result's path is a
start-first list of resolved topics whose consecutive entries are
neighbors, with length `distance + 1`. -/
theorem bfsLoop_path_valid (db : Store) (f : Bool) (start endT : Topic)
    (hnd : (db.map Topic.id).Nodup) (hne0 : ∀ t ∈ db, t.id ≠ "")
    (hstS : spGetTopicById db start.id f = some start)
    (hstE : spGetTopicById db endT.id f = some endT) :
    ∀ (fuel : Nat) (st : BfsState),
      StInv db start st → GoodInv db f start st →
      ∀ r, bfsLoop db f start endT fuel st = some r → r.pathExists = true →
        r.path.length = r.distance.toNat + 1 ∧ 0 ≤ r.distance ∧
        r.path.head? = some start ∧ r.path.getLast? = some endT ∧
        List.Chain' (fun a b => b ∈ getTopicNeighbors db a f) r.path := by
  intro fuel
  induction fuel with
  | zero =>
      intro st _ _ r hr
      exact absurd hr (by simp [bfsLoop])
  | succ fuel ih =>
      intro st I G r hr hex
      by_cases hemp : st.queue.isEmpty
      · rw [bfsLoop, if_pos hemp] at hr
        cases hr
        simp at hex
      · have hempf : st.queue.isEmpty = false := by
          rw [Bool.eq_false_iff]
          exact hemp
        have hlne : st.queue.toList ≠ [] := by
          rw [Queue.isEmpty_spec] at hempf
          intro h
          rw [h] at hempf
          exact absurd hempf (by simp)
        obtain ⟨c, rest, hcr⟩ := List.exists_cons_of_ne_nil hlne
        obtain ⟨hd, htl, hwf2⟩ := Queue.dequeue_spec st.queue I.hq
        have hcur : st.queue.dequeue.1.getD "" = c := by
          rw [hd, hcr]
          rfl
        have hcv : c ∈ st.visited := I.hqv c (by rw [hcr]; exact List.mem_cons_self _ _)
        rw [bfsLoop_succ_nonempty db f start endT fuel st hempf, hcur] at hr
        obtain ⟨nc, hnc, hg⟩ := G c hcv
        have hchain : ChainTo st.parent start.id c nc := hg.toChainTo
        have hgd : getDistance st.parent start.id c (st.parent.length + 1) = some nc :=
          getDistance_of_chain hchain _ (by omega)
        by_cases hce : c = endT.id
        · rw [if_pos hce] at hr
          rw [← hce] at hr
          rw [hgd] at hr
          have hsne : start.id ≠ "" := hne0 start (spGet_mem hstS)
          obtain ⟨ids, tps, hids, hmap, hlen, hhead, hlast, hch2⟩ :=
            buildPath_goodChain I.hps hsne hstS hg [] (st.parent.length + 1) (by omega)
          have hbp : buildPath db f st.parent start.id c (st.parent.length + 1) =
              some tps := by
            unfold buildPath buildPathIds
            rw [hids]
            rw [List.append_nil]
            show some (ids.filterMap (fun i => spGetTopicById db i f)) = some tps
            rw [filterMap_of_map_some hmap]
          rw [hbp] at hr
          have hrr : r = ⟨tps, (nc : Int), true, st.nodesExplored + 1,
              max st.maxDepth nc⟩ := (Option.some.inj hr).symm
          rw [hrr]
          refine ⟨?_, ?_, ?_, ?_, ?_⟩
          · show tps.length = ((nc : Int)).toNat + 1
            rw [hlen]
            simp
          · show (0 : Int) ≤ (nc : Int)
            exact Int.natCast_nonneg nc
          · exact hhead
          · show tps.getLast? = some endT
            rw [hlast, hce]
            exact hstE
          · exact hch2
        · rw [if_neg hce] at hr
          cases hres : spGetTopicById db c f with
          | none =>
              rw [hres] at hr
              have I2 : StInv db start
                  { st with
                    queue := st.queue.dequeue.2
                    nodesExplored := st.nodesExplored + 1 } := by
                refine ⟨hwf2, ?_, I.hvs, I.hvn, I.hvm, I.hpk, I.hps, I.hch⟩
                intro v hv
                rw [show ({ st with
                    queue := st.queue.dequeue.2
                    nodesExplored := st.nodesExplored + 1 } : BfsState).queue =
                  st.queue.dequeue.2 from rfl, htl] at hv
                exact I.hqv v (List.mem_of_mem_tail hv)
              have G2 : GoodInv db f start
                  { st with
                    queue := st.queue.dequeue.2
                    nodesExplored := st.nodesExplored + 1 } := G
              exact ih _ I2 G2 r hr hex
          | some currentTopic =>
              rw [hres, hgd] at hr
              set st1 : BfsState :=
                { queue := st.queue.dequeue.2
                  visited := st.visited
                  parent := st.parent
                  nodesExplored := st.nodesExplored + 1
                  maxDepth := max st.maxDepth nc } with hst1
              have I1 : StInv db start st1 := by
                refine ⟨hwf2, ?_, I.hvs, I.hvn, I.hvm, I.hpk, I.hps, I.hch⟩
                intro v hv
                rw [show st1.queue = st.queue.dequeue.2 from rfl, htl] at hv
                exact I.hqv v (List.mem_of_mem_tail hv)
              have G1 : GoodInv db f start st1 := G
              have hns : ∀ t ∈ getTopicNeighbors db currentTopic f,
                  t.id ∈ db.map Topic.id := by
                intro t ht
                exact List.mem_map_of_mem Topic.id (neighbors_mem t ht)
              have I3 := (addNeighbors_inv db start c
                (getTopicNeighbors db currentTopic f) st1 I1 hcv hns).1
              have G3 := addNeighbors_good db f start c currentTopic hnd hne0 hres
                (getTopicNeighbors db currentTopic f) st1 I1 G1 hcv (fun t ht => ht)
              exact ih _ I3 G3 r hr hex

/-- The BFS start state seeded with the resolved start topic. -/
def initBfsState (startT : Topic) : BfsState :=
  ⟨Queue.empty.enqueue startT.id, [startT.id], [], 0, 0⟩

theorem init_StInv (db : Store) (startT : Topic) (hmem : startT ∈ db) :
    StInv db startT (initBfsState startT) := by
  refine ⟨by simp [initBfsState, Queue.empty, Queue.enqueue], ?_, ?_, ?_, ?_, ?_, rfl, ?_⟩
  · intro v hv
    simpa [initBfsState, Queue.empty, Queue.enqueue, Queue.toList] using hv
  · exact List.mem_cons_self _ _
  · simp [initBfsState]
  · intro v hv
    simp [initBfsState] at hv
    rw [hv]
    exact List.mem_map_of_mem Topic.id hmem
  · intro kv hkv
    exact absurd hkv (List.not_mem_nil kv)
  · intro v hv
    simp [initBfsState] at hv
    rw [hv]
    exact ⟨0, by omega, Or.inl ChainTo.refl⟩

theorem init_GoodInv (db : Store) (f : Bool) (startT : Topic) :
    GoodInv db f startT (initBfsState startT) := by
  intro v hv
  simp [initBfsState] at hv
  rw [hv]
  exact ⟨0, by omega, GoodChain.refl⟩

/-- C2: on stores with unique, nonempty topic ids, every
`findShortestPath` result with `pathExists = true` carries a path whose
consecutive entries are neighbors under the neighbor relation, whose
length is `distance + 1`, whose first element is the resolved start
topic, and whose last element is the resolved end topic. -/
theorem c2_path_validity :
    ∀ (db : Store) (s e : String) (f : Bool) (fuel : Nat) (r : PathResult),
      (db.map Topic.id).Nodup → (∀ t ∈ db, t.id ≠ "") →
      findShortestPath db s e f fuel = some r → r.pathExists = true →
      r.path.length = r.distance.toNat + 1 ∧ 0 ≤ r.distance ∧
      r.path.head? = spGetTopicById db s f ∧
      r.path.getLast? = spGetTopicById db e f ∧
      List.Chain' (fun a b => b ∈ getTopicNeighbors db a f) r.path := by
  intro db s e f fuel r hnd hne0 hr hex
  unfold findShortestPath at hr
  cases hs : spGetTopicById db s f with
  | none =>
      rw [hs] at hr
      cases he : spGetTopicById db e f <;> rw [he] at hr <;>
        (cases hr; simp at hex)
  | some startT =>
      cases he : spGetTopicById db e f with
      | none =>
          rw [hs, he] at hr
          cases hr
          simp at hex
      | some endT =>
          rw [hs, he] at hr
          dsimp only at hr
          by_cases hse : s = e
          · rw [if_pos hse] at hr
            cases hr
            have hsame : startT = endT := by
              rw [hse] at hs
              rw [hs] at he
              exact Option.some.inj he
            refine ⟨by simp, by simp, rfl, ?_, by simp⟩
            rw [← hsame]
            rfl
          · rw [if_neg hse] at hr
            have hstS : spGetTopicById db startT.id f = some startT :=
              spGet_stable hnd (spGet_mem hs) (fun hf => by
                subst hf
                exact spGet_true_latest hs)
            have hstE : spGetTopicById db endT.id f = some endT :=
              spGet_stable hnd (spGet_mem he) (fun hf => by
                subst hf
                exact spGet_true_latest he)
            have hall := bfsLoop_path_valid db f startT endT hnd hne0 hstS hstE fuel
              (initBfsState startT) (init_StInv db startT (spGet_mem hs))
              (init_GoodInv db f startT) r hr hex
            exact hall

theorem c2_witness :
    ([mkTopic "r" "r" none 1 true, mkTopic "a" "a" (some "r") 1 true].length =
      ((1 : Int)).toNat + 1) ∧
    ((0 : Int) ≤ 1) ∧
    ([mkTopic "r" "r" none 1 true, mkTopic "a" "a" (some "r") 1 true].head? =
      spGetTopicById demoDb "r" true) ∧
    ([mkTopic "r" "r" none 1 true, mkTopic "a" "a" (some "r") 1 true].getLast? =
      spGetTopicById demoDb "a" true) ∧
    List.Chain' (fun a b => b ∈ getTopicNeighbors demoDb a true)
      [mkTopic "r" "r" none 1 true, mkTopic "a" "a" (some "r") 1 true] :=
  c2_path_validity demoDb "r" "a" true 3
    ⟨[mkTopic "r" "r" none 1 true, mkTopic "a" "a" (some "r") 1 true], 1, true, 2, 1⟩
    (by decide) (by decide) (by rfl) (by rfl)

/-! ## Claim C4: distance symmetry

The id graph explored by BFS: an edge leads from a requested id to each
id of the neighbor list of its resolution. -/

def nbrIds (db : Store) (f : Bool) (a : String) : List String :=
  match spGetTopicById db a f with
  | none => []
  | some t => (getTopicNeighbors db t f).map Topic.id

/-- Walks of a given length in the id graph. -/
inductive PathLen (db : Store) (f : Bool) : Nat → String → String → Prop
  | refl (a : String) : PathLen db f 0 a a
  | step {a b c : String} {n : Nat} : b ∈ nbrIds db f a → PathLen db f n b c →
      PathLen db f (n + 1) a c

/-- `n` is the exact graph distance from `a` to `b`. -/
def distIs (db : Store) (f : Bool) (a b : String) (n : Nat) : Prop :=
  PathLen db f n a b ∧ ∀ m, PathLen db f m a b → n ≤ m

theorem distIs_unique {db : Store} {f : Bool} {a b : String} {n m : Nat}
    (h1 : distIs db f a b n) (h2 : distIs db f a b m) : n = m :=
  Nat.le_antisymm (h1.2 m h2.1) (h2.2 n h1.1)

theorem PathLen_zero {db : Store} {f : Bool} {a b : String}
    (h : PathLen db f 0 a b) : a = b := by
  cases h
  rfl

theorem PathLen_snoc {db : Store} {f : Bool} :
    ∀ {n : Nat} {a b c : String}, PathLen db f n a b → c ∈ nbrIds db f b →
      PathLen db f (n + 1) a c := by
  intro n a b c h
  induction h with
  | refl a => exact fun hc => PathLen.step hc (PathLen.refl c)
  | step hb hp ih => exact fun hc => PathLen.step hb (ih hc)

theorem PathLen_snoc_inv {db : Store} {f : Bool} :
    ∀ {n : Nat} {a c : String}, PathLen db f (n + 1) a c →
      ∃ y, PathLen db f n a y ∧ c ∈ nbrIds db f y := by
  intro n
  induction n with
  | zero =>
      intro a c h
      cases h with
      | step hb hp =>
          cases hp
          exact ⟨a, PathLen.refl a, hb⟩
  | succ n ih =>
      intro a c h
      cases h with
      | step hb hp =>
          obtain ⟨y, hy, hc⟩ := ih hp
          exact ⟨y, PathLen.step hb hy, hc⟩

/-- Reachable nodes stay inside a set that contains the source and is
closed under the edge relation. -/
theorem reach_closed {db : Store} {f : Bool} {V : List String}
    (hcl : ∀ v ∈ V, ∀ w ∈ nbrIds db f v, w ∈ V) :
    ∀ {m : Nat} {a x : String}, a ∈ V → PathLen db f m a x → x ∈ V := by
  intro m a x ha h
  induction h with
  | refl a => exact ha
  | step hb hp ih =>
      rename_i a2 b2 c2 n2
      exact ih (hcl a2 ha b2 hb)

/-- Data-model invariants of a topic store (spec section 3): unique
nonempty ids, nonempty base ids, a unique latest version per base
identity, ids that coincide with a base identity belong to that lineage,
and parent references point at existing base identities. -/
structure WFStore (db : Store) : Prop where
  nodup : (db.map Topic.id).Nodup
  idne : ∀ t ∈ db, t.id ≠ ""
  basene : ∀ t ∈ db, t.baseTopicId ≠ ""
  uniqueLatest : ∀ t ∈ db, ∀ u ∈ db, t.isLatest = true → u.isLatest = true →
    t.baseTopicId = u.baseTopicId → t = u
  baseCoherent : ∀ t ∈ db, ∀ u ∈ db, u.id = t.baseTopicId →
    u.baseTopicId = t.baseTopicId
  parentBase : ∀ t ∈ db, ∀ p, t.parentTopicId = some p → ∃ u ∈ db, u.baseTopicId = p

theorem mem_id_inj {db : Store} (hnd : (db.map Topic.id).Nodup) {x y : Topic}
    (hx : x ∈ db) (hy : y ∈ db) (he : x.id = y.id) : x = y := by
  have h1 := findById_of_mem hnd hx
  have h2 := findById_of_mem hnd hy
  rw [he, h2] at h1
  exact (Option.some.inj h1).symm

theorem filter_eq_single {db : Store} (hnd : (db.map Topic.id).Nodup)
    {p : Topic → Bool} {u : Topic} (hu : u ∈ db) (hpu : p u = true)
    (hall : ∀ x ∈ db, p x = true → x = u) : db.filter p = [u] := by
  induction db with
  | nil => exact absurd hu (List.not_mem_nil u)
  | cons a rest ih =>
      rw [List.map_cons, List.nodup_cons] at hnd
      by_cases hau : a = u
      · subst hau
        rw [List.filter_cons_of_pos hpu]
        have hrest : rest.filter p = [] := by
          rw [List.filter_eq_nil_iff]
          intro x hx hpx
          have hxa : x = a := hall x (List.mem_cons_of_mem _ hx) hpx
          exact absurd (List.mem_map_of_mem Topic.id hx)
            (by rw [hxa]; exact hnd.1)
        rw [hrest]
      · have hpa : p a = false := by
          rw [Bool.eq_false_iff]
          intro hx
          exact hau (hall a (List.mem_cons_self _ _) hx)
        rw [List.filter_cons_of_neg (by rw [hpa]; exact Bool.false_ne_true)]
        have humem : u ∈ rest := by
          rcases List.mem_cons.mp hu with he | h2
          · exact absurd he.symm hau
          · exact h2
        exact ih hnd.2 humem (fun x hx hpx => hall x (List.mem_cons_of_mem _ hx) hpx)

theorem findBaseLatest_single {db : Store} (W : WFStore db) {u : Topic}
    (hu : u ∈ db) (hlat : u.isLatest = true) :
    findBaseLatest db u.baseTopicId = [u] := by
  unfold findBaseLatest
  apply filter_eq_single W.nodup hu
  · simp [hlat]
  · intro x hx hpx
    simp at hpx
    exact W.uniqueLatest x hx u hu hpx.2 hlat hpx.1

/-- The parent-edge resolution of the base id of a latest topic finds
that topic, through one of the two resolution branches. -/
theorem base_resolves (db : Store) (W : WFStore db) {u : Topic}
    (hu : u ∈ db) (hlat : u.isLatest = true) :
    spGetTopicById db u.baseTopicId true = some u ∨
      (spGetTopicById db u.baseTopicId true = none ∧
        (findBaseLatest db u.baseTopicId).head? = some u) := by
  cases hf : findById db u.baseTopicId with
  | some T =>
      left
      have hT : T ∈ db := List.mem_of_find?_eq_some hf
      have hTid : T.id = u.baseTopicId := by
        have := List.find?_some hf
        simpa using this
      have hTbase : T.baseTopicId = u.baseTopicId := W.baseCoherent u hu T hT hTid
      unfold spGetTopicById
      rw [if_pos rfl, hf]
      dsimp only
      by_cases hTl : T.isLatest
      · rw [if_pos hTl]
        have : T = u := W.uniqueLatest T hT u hu (by simpa using hTl) hlat hTbase
        rw [this]
      · rw [if_neg hTl, hTbase, findBaseLatest_single W hu hlat]
        rfl
  | none =>
      right
      constructor
      · unfold spGetTopicById
        rw [if_pos rfl, hf]
      · rw [findBaseLatest_single W hu hlat]
        rfl

/-- What the parent-edge resolution of an existing base id can return: a
latest stored topic of that lineage, or the exact latest topic with that
very id. -/
theorem parent_resolution_shape (db : Store) (W : WFStore db) {p : String}
    (hpb : ∃ w ∈ db, w.baseTopicId = p) {q : Topic}
    (h : spGetTopicById db p true = some q ∨
      (spGetTopicById db p true = none ∧ (findBaseLatest db p).head? = some q)) :
    q ∈ db ∧ q.isLatest = true ∧ (q.baseTopicId = p ∨ q.id = p) := by
  obtain ⟨w, hw, hwp⟩ := hpb
  rcases h with h | ⟨_, h⟩
  · refine ⟨spGet_mem h, spGet_true_latest h, ?_⟩
    unfold spGetTopicById at h
    rw [if_pos rfl] at h
    cases hf : findById db p with
    | none => rw [hf] at h; exact absurd h (by simp)
    | some T =>
        rw [hf] at h
        dsimp only at h
        have hT : T ∈ db := List.mem_of_find?_eq_some hf
        have hTid : T.id = p := by
          have := List.find?_some hf
          simpa using this
        by_cases hTl : T.isLatest
        · rw [if_pos hTl] at h
          cases h
          right
          exact hTid
        · rw [if_neg hTl] at h
          left
          have hTbase : T.baseTopicId = p := by
            rw [← hwp]
            exact W.baseCoherent w hw T hT (by rw [hTid, hwp])
          have hm : q ∈ findBaseLatest db T.baseTopicId := head?_mem h
          unfold findBaseLatest at hm
          have := (List.mem_filter.mp hm).2
          simp at this
          rw [← hTbase]
          exact this.1
  · have hm : q ∈ findBaseLatest db p := head?_mem h
    unfold findBaseLatest at hm
    have hmem := List.mem_of_mem_filter hm
    have := (List.mem_filter.mp hm).2
    simp at this
    exact ⟨hmem, this.2, Or.inl this.1⟩

theorem mem_findChildren {db : Store} {v : Topic} {pid : String} {f : Bool} :
    v ∈ findChildren db pid f ↔
      v ∈ db ∧ v.parentTopicId = some pid ∧ (f = true → v.isLatest = true) := by
  unfold findChildren
  rw [List.mem_filter]
  cases f with
  | false => simp
  | true => simp

theorem mem_neighbors_child {db : Store} {t v : Topic} {f : Bool}
    (h : v ∈ findChildren db (baseOrId t) f) : v ∈ getTopicNeighbors db t f := by
  unfold getTopicNeighbors
  simp only [List.mem_append]
  exact Or.inl (Or.inr h)

theorem mem_neighbors_direct {db : Store} {t v : Topic} {f : Bool}
    (hne : t.id ≠ baseOrId t) (h : v ∈ findChildren db t.id f) :
    v ∈ getTopicNeighbors db t f := by
  unfold getTopicNeighbors
  simp only [List.mem_append]
  right
  rw [if_pos hne]
  exact h

theorem mem_neighbors_parentRes {db : Store} {t q : Topic} {pid : String}
    (hp : t.parentTopicId = some pid) (hne : pid ≠ "")
    (hres : spGetTopicById db pid true = some q ∨
      (spGetTopicById db pid true = none ∧ (findBaseLatest db pid).head? = some q)) :
    q ∈ getTopicNeighbors db t true := by
  unfold getTopicNeighbors
  simp only [List.mem_append]
  left; left
  rw [hp]
  dsimp only
  rw [if_neg hne]
  rcases hres with h | ⟨h1, h2⟩
  · rw [h]
    simp
  · rw [h1]
    dsimp only
    rw [h2]
    simp

theorem mem_neighbors_cases {db : Store} {t v : Topic}
    (hn : v ∈ getTopicNeighbors db t true) :
    (∃ pid, t.parentTopicId = some pid ∧ pid ≠ "" ∧
      (spGetTopicById db pid true = some v ∨
        (spGetTopicById db pid true = none ∧ (findBaseLatest db pid).head? = some v))) ∨
    v ∈ findChildren db (baseOrId t) true ∨
    (t.id ≠ baseOrId t ∧ v ∈ findChildren db t.id true) := by
  unfold getTopicNeighbors at hn
  simp only [List.mem_append] at hn
  rcases hn with (hn | hn) | hn
  · left
    cases hp : t.parentTopicId with
    | none => rw [hp] at hn; simp at hn
    | some p =>
        rw [hp] at hn
        dsimp only at hn
        by_cases he : p = ""
        · rw [if_pos he] at hn
          simp at hn
        · rw [if_neg he] at hn
          refine ⟨p, rfl, he, ?_⟩
          cases hg : spGetTopicById db p true with
          | some q =>
              rw [hg] at hn
              simp at hn
              rw [hn]
              exact Or.inl rfl
          | none =>
              rw [hg] at hn
              dsimp only at hn
              cases hh : (findBaseLatest db p).head? with
              | none => rw [hh] at hn; simp at hn
              | some q =>
                  rw [hh] at hn
                  simp at hn
                  rw [hn]
                  exact Or.inr ⟨rfl, rfl⟩
  · exact Or.inr (Or.inl hn)
  · by_cases hd : t.id ≠ baseOrId t
    · rw [if_pos hd] at hn
      exact Or.inr (Or.inr ⟨hd, hn⟩)
    · rw [if_neg hd] at hn
      simp at hn

/-- On a well-formed store with `onlyLatest`, the neighbor relation is
symmetric between latest topics: every edge out of a latest topic has a
matching edge back. -/
theorem neighbors_symm (db : Store) (W : WFStore db) {tu tv : Topic}
    (hu : tu ∈ db) (hulat : tu.isLatest = true)
    (hv : tv ∈ getTopicNeighbors db tu true) :
    tu ∈ getTopicNeighbors db tv true := by
  have hbase : baseOrId tu = tu.baseTopicId := by
    unfold baseOrId
    rw [if_neg (W.basene tu hu)]
  rcases mem_neighbors_cases hv with ⟨pid, hp, hne, hres⟩ | hv | ⟨hd, hv⟩
  · have hpb := W.parentBase tu hu pid hp
    obtain ⟨hvdb, hvlat, hshape⟩ := parent_resolution_shape db W hpb hres
    have hbasev : baseOrId tv = tv.baseTopicId := by
      unfold baseOrId
      rw [if_neg (W.basene tv hvdb)]
    rcases hshape with hb | hid
    · apply mem_neighbors_child
      rw [hbasev, hb]
      exact mem_findChildren.mpr ⟨hu, hp, fun _ => hulat⟩
    · by_cases hbb : tv.baseTopicId = pid
      · apply mem_neighbors_child
        rw [hbasev, hbb]
        exact mem_findChildren.mpr ⟨hu, hp, fun _ => hulat⟩
      · apply mem_neighbors_direct
        · rw [hbasev, hid]
          exact fun hx => hbb hx.symm
        · rw [hid]
          exact mem_findChildren.mpr ⟨hu, hp, fun _ => hulat⟩
  · obtain ⟨hvdb, hvp, hvlat⟩ := mem_findChildren.mp hv
    rw [hbase] at hvp
    exact mem_neighbors_parentRes hvp (W.basene tu hu) (base_resolves db W hu hulat)
  · obtain ⟨hvdb, hvp, hvlat⟩ := mem_findChildren.mp hv
    exact mem_neighbors_parentRes hvp (W.idne tu hu)
      (Or.inl (spGet_stable W.nodup hu (fun _ => hulat)))

theorem nbrIds_latest {db : Store} {a b : String}
    (hb : b ∈ nbrIds db true a) : ∃ t ∈ db, t.id = b ∧ t.isLatest = true := by
  unfold nbrIds at hb
  cases hg : spGetTopicById db a true with
  | none => rw [hg] at hb; simp at hb
  | some t =>
      rw [hg] at hb
      dsimp only at hb
      obtain ⟨n, hn, hnid⟩ := List.mem_map.mp hb
      exact ⟨n, neighbors_mem n hn, hnid, neighbors_latest hn⟩

/-- On a well-formed store with `onlyLatest`, a BFS edge between the id of
a latest topic and a neighbor id always has a reverse edge. -/
theorem nbrIds_symm (db : Store) (W : WFStore db) {a b : String}
    (ha : ∃ t ∈ db, t.id = a ∧ t.isLatest = true)
    (hb : b ∈ nbrIds db true a) : a ∈ nbrIds db true b := by
  obtain ⟨ta, hta, htaid, htal⟩ := ha
  have hga : spGetTopicById db a true = some ta := by
    rw [← htaid]
    exact spGet_stable W.nodup hta (fun _ => htal)
  unfold nbrIds at hb
  rw [hga] at hb
  dsimp only at hb
  obtain ⟨n, hn, hnid⟩ := List.mem_map.mp hb
  have hsym : ta ∈ getTopicNeighbors db n true := neighbors_symm db W hta htal hn
  have hgb : spGetTopicById db b true = some n := by
    rw [← hnid]
    exact spGet_stable W.nodup (neighbors_mem n hn) (fun _ => neighbors_latest hn)
  unfold nbrIds
  rw [hgb]
  dsimp only
  rw [← htaid]
  exact List.mem_map_of_mem Topic.id hsym

/-- Walks reverse on a well-formed store with `onlyLatest`: the id graph
is undirected there. -/
theorem PathLen_symm (db : Store) (W : WFStore db) :
    ∀ {n : Nat} {a b : String}, PathLen db true n a b →
      (∃ t ∈ db, t.id = a ∧ t.isLatest = true) → PathLen db true n b a := by
  intro n a b h
  induction h with
  | refl a => exact fun _ => PathLen.refl a
  | step hb hp ih =>
      intro ha
      exact PathLen_snoc (ih (nbrIds_latest hb)) (nbrIds_symm db W ha hb)

/-- BFS minimality invariant (for `onlyLatest`): every visited id resolves
to a latest stored topic, carries a parent chain whose length is its exact
graph distance from the start, the queue holds two consecutive label
levels, and every visited id is still frontier material or has all its
neighbors visited. -/
structure MinInv (db : Store) (start : Topic) (st : BfsState) : Prop where
  m0 : ∀ v ∈ st.visited, ∃ t ∈ db, t.id = v ∧ t.isLatest = true
  m1 : ∀ v ∈ st.visited, ∃ n, n ≤ st.parent.length ∧
    ChainTo st.parent start.id v n ∧ distIs db true start.id v n
  mq : ∃ k A B, st.queue.toList = A ++ B ∧
    (∀ a ∈ A, ChainTo st.parent start.id a k) ∧
    (∀ b ∈ B, ChainTo st.parent start.id b (k + 1)) ∧
    (A = [] → B = [])
  m2 : ∀ x ∈ st.visited, x ∈ st.queue.toList ∨
    ∀ w ∈ nbrIds db true x, w ∈ st.visited

/-- Everything within graph distance `k` of the start is already visited
when the frontier sits at levels `k` and `k + 1`. -/
theorem reach_visited (db : Store) (start : Topic) (st : BfsState)
    (I : StInv db start st) (M : MinInv db start st)
    {k : Nat} {A B : List String}
    (hq : st.queue.toList = A ++ B)
    (hA : ∀ a ∈ A, ChainTo st.parent start.id a k)
    (hB : ∀ b ∈ B, ChainTo st.parent start.id b (k + 1)) :
    ∀ m, m ≤ k → ∀ x, PathLen db true m start.id x → x ∈ st.visited := by
  intro m
  induction m with
  | zero =>
      intro _ x hp
      rw [← PathLen_zero hp]
      exact I.hvs
  | succ m ih =>
      intro hm x hp
      obtain ⟨y, hy, hx⟩ := PathLen_snoc_inv hp
      have hyv : y ∈ st.visited := ih (by omega) y hy
      obtain ⟨n, hnb, hc, hd⟩ := M.m1 y hyv
      have hnm : n ≤ m := hd.2 m hy
      rcases M.m2 y hyv with hq2 | hproc
      · rw [hq] at hq2
        rcases List.mem_append.mp hq2 with ha | hb
        · have := ChainTo_unique hc (hA y ha)
          omega
        · have := ChainTo_unique hc (hB y hb)
          omega
      · exact hproc x hx

/-- Detailed effect of the neighbor loop: the queue gains exactly the
fresh ids, old labels survive, and each fresh id is labeled one past the
current node's label. -/
theorem addNeighbors_min (db : Store) (start : Topic) (cur : String) (k : Nat) :
    ∀ (ns : List Topic) (st : BfsState),
      StInv db start st →
      cur ∈ st.visited →
      ChainTo st.parent start.id cur k →
      (∀ t ∈ ns, t.id ∈ db.map Topic.id) →
      (∀ t ∈ ns, t.id ≠ "") →
      ∃ new : List String,
        (addNeighbors cur ns st).queue.toList = st.queue.toList ++ new ∧
        (∀ x, x ∈ (addNeighbors cur ns st).visited ↔ x ∈ new ∨ x ∈ st.visited) ∧
        (∀ v n, v ∈ st.visited → ChainTo st.parent start.id v n →
          ChainTo (addNeighbors cur ns st).parent start.id v n) ∧
        (∀ w ∈ new, ChainTo (addNeighbors cur ns st).parent start.id w (k + 1)) ∧
        (∀ w ∈ new, w ∈ ns.map Topic.id ∧ w ∉ st.visited) ∧
        (addNeighbors cur ns st).parent.length = st.parent.length + new.length := by
  intro ns
  induction ns with
  | nil =>
      intro st I hcur hch _ _
      refine ⟨[], (List.append_nil _).symm, by simp [addNeighbors], ?_, ?_, ?_, rfl⟩
      · exact fun v n _ h => h
      · intro w hw
        exact absurd hw (List.not_mem_nil w)
      · intro w hw
        exact absurd hw (List.not_mem_nil w)
  | cons n rest ih =>
      intro st I hcur hch hmem hne
      by_cases hc : st.visited.contains n.id
      · rw [show addNeighbors cur (n :: rest) st = addNeighbors cur rest st from by
          rw [addNeighbors, if_pos hc]]
        obtain ⟨new, h1, h2, h3, h4, h5, h6⟩ :=
          ih st I hcur hch (fun t ht => hmem t (List.mem_cons_of_mem _ ht))
            (fun t ht => hne t (List.mem_cons_of_mem _ ht))
        refine ⟨new, h1, h2, h3, h4, ?_, h6⟩
        intro w hw
        obtain ⟨hw1, hw2⟩ := h5 w hw
        exact ⟨by rw [List.map_cons]; exact List.mem_cons_of_mem _ hw1, hw2⟩
      · have hnv : n.id ∉ st.visited := by simpa using hc
        set st2 : BfsState :=
          { st with
            visited := n.id :: st.visited
            parent := (n.id, cur) :: st.parent
            queue := st.queue.enqueue n.id } with hst2
        have hstep : addNeighbors cur (n :: rest) st = addNeighbors cur rest st2 := by
          rw [addNeighbors, if_neg hc]
        have hnstart : n.id ≠ start.id := fun he => hnv (by rw [he]; exact I.hvs)
        have hnid : n.id ≠ "" := hne n (List.mem_cons_self _ _)
        have hI2 : StInv db start st2 := by
          have h1 := (addNeighbors_inv db start cur [n] st I hcur (fun t ht => by
            simp at ht
            rw [ht]
            exact hmem n (List.mem_cons_self _ _))).1
          rwa [show addNeighbors cur [n] st = st2 from by
            rw [addNeighbors, if_neg hc]
            rfl] at h1
        have hpres2 : ∀ v m, v ∈ st.visited → ChainTo st.parent start.id v m →
            ChainTo st2.parent start.id v m := by
          intro v m hv hcv2
          exact ChainTo_mono hcv2 (fun kv hkv => I.hpk kv hkv) hnv hv
        have hch2 : ChainTo st2.parent start.id cur k := hpres2 cur k hcur hch
        have hchn : ChainTo st2.parent start.id n.id (k + 1) :=
          ChainTo.step hnstart hnid lookup_cons_self hch2
        obtain ⟨new2, h1, h2, h3, h4, h5, h6⟩ :=
          ih st2 hI2 (List.mem_cons_of_mem _ hcur) hch2
            (fun t ht => hmem t (List.mem_cons_of_mem _ ht))
            (fun t ht => hne t (List.mem_cons_of_mem _ ht))
        have hq2 : st2.queue.toList = st.queue.toList ++ [n.id] := by
          rw [hst2]
          exact Queue.toList_enqueue _ _ I.hq
        refine ⟨n.id :: new2, ?_, ?_, ?_, ?_, ?_, ?_⟩
        · rw [hstep, h1, hq2, List.append_assoc]
          rfl
        · intro x
          rw [hstep, h2 x]
          constructor
          · intro hx
            rcases hx with hx | hx
            · exact Or.inl (List.mem_cons_of_mem _ hx)
            · rcases List.mem_cons.mp hx with he | hx2
              · rw [he]
                exact Or.inl (List.mem_cons_self _ _)
              · exact Or.inr hx2
          · intro hx
            rcases hx with hx | hx
            · rcases List.mem_cons.mp hx with he | hx2
              · rw [he]
                exact Or.inr (List.mem_cons_self _ _)
              · exact Or.inl hx2
            · exact Or.inr (List.mem_cons_of_mem _ hx)
        · intro v m hv hcv2
          rw [hstep]
          exact h3 v m (List.mem_cons_of_mem _ hv) (hpres2 v m hv hcv2)
        · intro w hw
          rw [hstep]
          rcases List.mem_cons.mp hw with he | hw2
          · rw [he]
            exact h3 n.id (k + 1) (List.mem_cons_self _ _) hchn
          · exact h4 w hw2
        · intro w hw
          rcases List.mem_cons.mp hw with he | hw2
          · rw [he, List.map_cons]
            exact ⟨List.mem_cons_self _ _, hnv⟩
          · obtain ⟨hw1, hw3⟩ := h5 w hw2
            refine ⟨by rw [List.map_cons]; exact List.mem_cons_of_mem _ hw1, ?_⟩
            intro hx
            exact hw3 (List.mem_cons_of_mem _ hx)
        · rw [hstep, h6]
          rw [show st2.parent = (n.id, cur) :: st.parent from rfl]
          simp
          omega

theorem init_MinInv (db : Store) (startT : Topic) (hmem : startT ∈ db)
    (hlat : startT.isLatest = true) : MinInv db startT (initBfsState startT) := by
  refine ⟨?_, ?_, ?_, ?_⟩
  · intro v hv
    simp [initBfsState] at hv
    exact ⟨startT, hmem, by rw [hv], hlat⟩
  · intro v hv
    simp [initBfsState] at hv
    refine ⟨0, by simp [initBfsState], ?_, ?_, ?_⟩
    · rw [hv]
      exact ChainTo.refl
    · rw [hv]
      exact PathLen.refl _
    · intro m _
      exact Nat.zero_le m
  · refine ⟨0, [startT.id], [], ?_, ?_, ?_, ?_⟩
    · show Queue.toList (Queue.enqueue Queue.empty startT.id) = [startT.id] ++ []
      simp [Queue.empty, Queue.enqueue, Queue.toList]
    · intro a ha
      simp at ha
      rw [ha]
      exact ChainTo.refl
    · intro b hb
      exact absurd hb (List.not_mem_nil b)
    · intro h
      exact absurd h (by simp)
  · intro x hx
    left
    simp [initBfsState] at hx
    rw [hx]
    simp [initBfsState, Queue.empty, Queue.enqueue, Queue.toList]

/-- The BFS loop run from a frontier satisfying the minimality invariant
finds a reachable target at its exact graph distance. -/
theorem bfsLoop_distance (db : Store) (start endT : Topic)
    (hnd : (db.map Topic.id).Nodup) (hne0 : ∀ t ∈ db, t.id ≠ "") :
    ∀ (fuel : Nat) (st : BfsState),
      StInv db start st → MinInv db start st →
      (endT.id ∈ st.visited → endT.id ∈ st.queue.toList) →
      (∃ m, PathLen db true m start.id endT.id) →
      st.queue.toList.length + (db.length - st.visited.length) + 1 ≤ fuel →
      ∃ r d, bfsLoop db true start endT fuel st = some r ∧
        r.pathExists = true ∧ distIs db true start.id endT.id d ∧
        r.distance = (d : Int) := by
  intro fuel
  induction fuel with
  | zero =>
      intro st _ _ _ _ hF
      omega
  | succ fuel ih =>
      intro st I M hfound hconn hF
      have hvle : st.visited.length ≤ db.length := by
        have := nodup_subset_length I.hvn I.hvm
        simpa using this
      by_cases hemp : st.queue.isEmpty
      · exfalso
        have hnil : st.queue.toList = [] := by
          rw [Queue.isEmpty_spec] at hemp
          simpa using hemp
        have hcl : ∀ v ∈ st.visited, ∀ w ∈ nbrIds db true v, w ∈ st.visited := by
          intro v hv
          rcases M.m2 v hv with hq | hp
          · rw [hnil] at hq
            exact absurd hq (List.not_mem_nil v)
          · exact hp
        obtain ⟨m, hm⟩ := hconn
        have hev : endT.id ∈ st.visited := reach_closed hcl I.hvs hm
        have := hfound hev
        rw [hnil] at this
        exact absurd this (List.not_mem_nil _)
      · have hempf : st.queue.isEmpty = false := Bool.eq_false_iff.mpr hemp
        obtain ⟨k, A, B, hqAB, hA, hB, hnorm⟩ := M.mq
        have hlne : st.queue.toList ≠ [] := by
          rw [Queue.isEmpty_spec] at hempf
          intro h
          rw [h] at hempf
          exact absurd hempf (by simp)
        have hAne : A ≠ [] := by
          intro h
          rw [hqAB, h, hnorm h] at hlne
          exact hlne rfl
        obtain ⟨c, A2, hcA⟩ := List.exists_cons_of_ne_nil hAne
        have hcr : st.queue.toList = c :: (A2 ++ B) := by
          rw [hqAB, hcA]
          rfl
        obtain ⟨hd, htl, hwf2⟩ := Queue.dequeue_spec st.queue I.hq
        have hcur : st.queue.dequeue.1.getD "" = c := by
          rw [hd, hcr]
          rfl
        have hcv : c ∈ st.visited := I.hqv c (by rw [hcr]; exact List.mem_cons_self _ _)
        have hck : ChainTo st.parent start.id c k :=
          hA c (by rw [hcA]; exact List.mem_cons_self _ _)
        obtain ⟨nc, hncb, hncc, hncd⟩ := M.m1 c hcv
        have hnck : nc = k := ChainTo_unique hncc hck
        rw [bfsLoop_succ_nonempty db true start endT fuel st hempf, hcur]
        by_cases hce : c = endT.id
        · rw [if_pos hce, ← hce]
          rw [getDistance_of_chain hncc _ (by omega)]
          obtain ⟨out, hout⟩ :=
            buildPathIdsAux_some_of_chain I.hps hncc [] (st.parent.length + 1) (by omega)
          have hbp2 : buildPath db true st.parent start.id c (st.parent.length + 1) =
              some (out.filterMap (fun i => spGetTopicById db i true)) := by
            unfold buildPath buildPathIds
            rw [hout]
            rfl
          rw [hbp2]
          exact ⟨_, nc, rfl, rfl, hncd, rfl⟩
        · rw [if_neg hce]
          obtain ⟨ct, hctdb, hctid, hctlat⟩ := M.m0 c hcv
          have hres : spGetTopicById db c true = some ct := by
            rw [← hctid]
            exact spGet_stable hnd hctdb (fun _ => hctlat)
          rw [hres]
          rw [getDistance_of_chain hncc _ (by omega)]
          set st1 : BfsState :=
            { queue := st.queue.dequeue.2
              visited := st.visited
              parent := st.parent
              nodesExplored := st.nodesExplored + 1
              maxDepth := max st.maxDepth nc } with hst1
          have I1 : StInv db start st1 := by
            refine ⟨hwf2, ?_, I.hvs, I.hvn, I.hvm, I.hpk, I.hps, I.hch⟩
            intro v hv
            rw [show st1.queue = st.queue.dequeue.2 from rfl, htl] at hv
            exact I.hqv v (List.mem_of_mem_tail hv)
          have hq1 : st1.queue.toList = A2 ++ B := by
            rw [show st1.queue = st.queue.dequeue.2 from rfl, htl, hcr]
            rfl
          have hsp1 : st1.parent.length = st.parent.length := rfl
          set ns := getTopicNeighbors db ct true with hns
          have hnsmem : ∀ t ∈ ns, t.id ∈ db.map Topic.id := by
            intro t ht
            exact List.mem_map_of_mem Topic.id (neighbors_mem t ht)
          have hnsne : ∀ t ∈ ns, t.id ≠ "" := by
            intro t ht
            exact hne0 t (neighbors_mem t ht)
          obtain ⟨I3, hmono, hall, hcount, hne3, hmd3⟩ :=
            addNeighbors_inv db start c ns st1 I1 hcv hnsmem
          obtain ⟨new, hqnew, hviff, hpres, hfreshch, hfreshsrc, hplen⟩ :=
            addNeighbors_min db start c k ns st1 I1 hcv hck hnsmem hnsne
          set st3 := addNeighbors c ns st1 with hst3
          have hnbrc : nbrIds db true c = ns.map Topic.id := by
            unfold nbrIds
            rw [hres]
          have hreach : ∀ m, m ≤ k → ∀ x, PathLen db true m start.id x →
              x ∈ st.visited :=
            reach_visited db start st I M hqAB hA hB
          have M3 : MinInv db start st3 := by
            refine ⟨?_, ?_, ?_, ?_⟩
            · intro v hv
              rcases (hviff v).mp hv with hvn | hvo
              · obtain ⟨hv1, _⟩ := hfreshsrc v hvn
                obtain ⟨t, ht, htid⟩ := List.mem_map.mp hv1
                exact ⟨t, neighbors_mem t ht, htid, neighbors_latest ht⟩
              · exact M.m0 v hvo
            · intro v hv
              rcases (hviff v).mp hv with hvn | hvo
              · refine ⟨k + 1, ?_, hfreshch v hvn, ?_, ?_⟩
                · have hnn : new ≠ [] := List.ne_nil_of_mem hvn
                  have hgt : 1 ≤ new.length := List.length_pos.mpr hnn
                  omega
                · refine PathLen_snoc (show PathLen db true k start.id c from ?_) ?_
                  · rw [← hnck]
                    exact hncd.1
                  · rw [hnbrc]
                    exact (hfreshsrc v hvn).1
                · intro m hpm
                  by_contra hlt
                  push_neg at hlt
                  exact (hfreshsrc v hvn).2 (hreach m (by omega) v hpm)
              · obtain ⟨n, hb2, hc2, hd2⟩ := M.m1 v hvo
                exact ⟨n, by omega, hpres v n hvo hc2, hd2⟩
            · by_cases hA2 : A2 = []
              · refine ⟨k + 1, B ++ new, [], ?_, ?_, ?_, fun _ => rfl⟩
                · rw [hqnew, hq1, hA2]
                  simp
                · intro a ha
                  rcases List.mem_append.mp ha with ha | ha
                  · have hav : a ∈ st.visited := I.hqv a (by
                      rw [hqAB]
                      exact List.mem_append.mpr (Or.inr ha))
                    exact hpres a (k + 1) hav (hB a ha)
                  · exact hfreshch a ha
                · intro b hb
                  exact absurd hb (List.not_mem_nil b)
              · refine ⟨k, A2, B ++ new, ?_, ?_, ?_, fun h => absurd h hA2⟩
                · rw [hqnew, hq1]
                  simp
                · intro a ha
                  have hav : a ∈ st.visited := I.hqv a (by
                    rw [hqAB, hcA]
                    exact List.mem_cons_of_mem _ (List.mem_append.mpr (Or.inl ha)))
                  exact hpres a k hav (hA a (by
                    rw [hcA]
                    exact List.mem_cons_of_mem _ ha))
                · intro b hb
                  rcases List.mem_append.mp hb with hb | hb
                  · have hbv : b ∈ st.visited := I.hqv b (by
                      rw [hqAB]
                      exact List.mem_append.mpr (Or.inr hb))
                    exact hpres b (k + 1) hbv (hB b hb)
                  · exact hfreshch b hb
            · intro x hx
              rcases (hviff x).mp hx with hxn | hxo
              · left
                rw [hqnew]
                exact List.mem_append.mpr (Or.inr hxn)
              · rcases M.m2 x hxo with hq2 | hproc
                · rw [hcr] at hq2
                  rcases List.mem_cons.mp hq2 with he | hq3
                  · right
                    rw [he, hnbrc]
                    intro w hw
                    obtain ⟨t, ht, htid⟩ := List.mem_map.mp hw
                    rw [← htid]
                    exact hall t ht
                  · left
                    rw [hqnew, hq1]
                    exact List.mem_append.mpr (Or.inl hq3)
                · right
                  intro w hw
                  exact (hviff w).mpr (Or.inr (hproc w hw))
          have hfound3 : endT.id ∈ st3.visited → endT.id ∈ st3.queue.toList := by
            intro hv
            rcases (hviff endT.id).mp hv with hvn | hvo
            · rw [hqnew]
              exact List.mem_append.mpr (Or.inr hvn)
            · have hmem2 := hfound hvo
              rw [hcr] at hmem2
              rcases List.mem_cons.mp hmem2 with he | hq3
              · exact absurd he.symm hce
              · rw [hqnew, hq1]
                exact List.mem_append.mpr (Or.inl hq3)
          have hv13 : st1.visited.length ≤ st3.visited.length := by
            apply nodup_subset_length I1.hvn
            intro x hx
            exact hmono x hx
          have hv3le : st3.visited.length ≤ db.length := by
            have := nodup_subset_length I3.hvn I3.hvm
            simpa using this
          have hsv1 : st1.visited.length = st.visited.length := rfl
          have hq1lb : st1.queue.toList.length + 1 = st.queue.toList.length := by
            rw [hq1, hcr]
            rfl
          have hfuel3 : st3.queue.toList.length +
              (db.length - st3.visited.length) + 1 ≤ fuel := by
            omega
          obtain ⟨r, dd, hr, hrex, hrd, hrdv⟩ := ih st3 I3 M3 hfound3 hconn hfuel3
          exact ⟨r, dd, hr, hrex, hrd, hrdv⟩

/-- A store holding a stale/latest version pair (`s1`, `s2`) and a topic
`c` whose parent pointer names the stale version id. -/
def c4db : Store :=
  [mkTopic "s1" "s1" none 1 false, mkTopic "s2" "s1" none 2 true,
    mkTopic "c" "c" (some "s1") 1 true]

def resultDistance : Option PathResult → Int
  | some r => r.distance
  | none => 0

def resultFound : Option PathResult → Bool
  | some r => r.pathExists
  | none => false

theorem c4_counterexample :
    PathLen c4db false 1 "s2" "c" ∧
    resultFound (findShortestPath c4db "s2" "c" false 5) = true ∧
    resultDistance (findShortestPath c4db "s2" "c" false 5) = 1 ∧
    resultDistance (findShortestPath c4db "c" "s2" false 5) = -1 ∧
    resultDistance (findShortestPath c4db "s2" "c" false 5) ≠
      resultDistance (findShortestPath c4db "c" "s2" false 5) := by
  refine ⟨PathLen.step (by decide) (PathLen.refl "c"), rfl, rfl, rfl, ?_⟩
  show (1 : Int) ≠ (-1 : Int)
  decide

/-- C4 (corrected): distance symmetry fails as claimed — with
`onlyLatest = false`, a parent pointer naming a stale version id gives a
child edge from the latest version without a reverse edge
(`c4_counterexample`).  Amended: on a store satisfying the data-model
invariants and with `onlyLatest = true`, for latest topics `A` and `B`
joined by a parent/child chain, both runs of `findShortestPath` succeed
and report the same distance, namely the exact graph distance between the
two ids. -/
theorem c4_distance_symmetric (db : Store) (W : WFStore db) (A B : Topic)
    (hA : A ∈ db) (hB : B ∈ db) (hAl : A.isLatest = true) (hBl : B.isLatest = true)
    (hconn : ∃ m, PathLen db true m A.id B.id) (fuel : Nat)
    (hfuel : db.length + 1 ≤ fuel) :
    ∃ rAB rBA d,
      findShortestPath db A.id B.id true fuel = some rAB ∧
      findShortestPath db B.id A.id true fuel = some rBA ∧
      rAB.pathExists = true ∧ rBA.pathExists = true ∧
      rAB.distance = rBA.distance ∧
      distIs db true A.id B.id d ∧
      rAB.distance = (d : Int) ∧ rBA.distance = (d : Int) := by
  have hgA : spGetTopicById db A.id true = some A :=
    spGet_stable W.nodup hA (fun _ => hAl)
  have hgB : spGetTopicById db B.id true = some B :=
    spGet_stable W.nodup hB (fun _ => hBl)
  have hdbpos : 1 ≤ db.length := List.length_pos.mpr (List.ne_nil_of_mem hA)
  by_cases he : A.id = B.id
  · refine ⟨⟨[A], 0, true, 1, 0⟩, ⟨[B], 0, true, 1, 0⟩, 0, ?_, ?_, rfl, rfl, rfl,
      ⟨?_, ?_⟩, rfl, rfl⟩
    · unfold findShortestPath
      rw [hgA, hgB]
      dsimp only
      rw [if_pos he]
    · unfold findShortestPath
      rw [hgB, hgA]
      dsimp only
      rw [if_pos he.symm]
    · rw [← he]
      exact PathLen.refl A.id
    · intro m _
      exact Nat.zero_le m
  · have hinitq : (initBfsState A).queue.toList.length = 1 := rfl
    have hconn2 : ∃ m, PathLen db true m B.id A.id := by
      obtain ⟨m, hm⟩ := hconn
      exact ⟨m, PathLen_symm db W hm ⟨A, hA, rfl, hAl⟩⟩
    obtain ⟨rAB, dAB, hrAB, hexAB, hdAB, hvAB⟩ :=
      bfsLoop_distance db A B W.nodup W.idne fuel (initBfsState A)
        (init_StInv db A hA) (init_MinInv db A hA hAl)
        (fun h => absurd (by simpa [initBfsState] using h : B.id = A.id).symm he)
        hconn
        (by
          show (initBfsState A).queue.toList.length +
            (db.length - (initBfsState A).visited.length) + 1 ≤ fuel
          rw [hinitq]
          show 1 + (db.length - 1) + 1 ≤ fuel
          omega)
    obtain ⟨rBA, dBA, hrBA, hexBA, hdBA, hvBA⟩ :=
      bfsLoop_distance db B A W.nodup W.idne fuel (initBfsState B)
        (init_StInv db B hB) (init_MinInv db B hB hBl)
        (fun h => absurd (by simpa [initBfsState] using h : A.id = B.id) he)
        hconn2
        (by
          show (initBfsState B).queue.toList.length +
            (db.length - (initBfsState B).visited.length) + 1 ≤ fuel
          show 1 + (db.length - 1) + 1 ≤ fuel
          omega)
    have hdd : dAB = dBA := by
      have h1 : PathLen db true dBA A.id B.id :=
        PathLen_symm db W hdBA.1 ⟨B, hB, rfl, hBl⟩
      have h2 : PathLen db true dAB B.id A.id :=
        PathLen_symm db W hdAB.1 ⟨A, hA, rfl, hAl⟩
      exact Nat.le_antisymm (hdAB.2 dBA h1) (hdBA.2 dAB h2)
    refine ⟨rAB, rBA, dAB, ?_, ?_, hexAB, hexBA, ?_, hdAB, hvAB, ?_⟩
    · unfold findShortestPath
      rw [hgA, hgB]
      dsimp only
      rw [if_neg he]
      exact hrAB
    · unfold findShortestPath
      rw [hgB, hgA]
      dsimp only
      rw [if_neg (Ne.symm he)]
      exact hrBA
    · rw [hvAB, hvBA, hdd]
    · rw [hvBA, hdd]

theorem c4_symmetry_witness :
    ∃ rAB rBA d,
      findShortestPath demoDb "r" "a" true 4 = some rAB ∧
      findShortestPath demoDb "a" "r" true 4 = some rBA ∧
      rAB.pathExists = true ∧ rBA.pathExists = true ∧
      rAB.distance = rBA.distance ∧
      distIs demoDb true "r" "a" d ∧
      rAB.distance = (d : Int) ∧ rBA.distance = (d : Int) := by
  have hW : WFStore demoDb :=
    ⟨by decide, by decide, by decide, by decide, by decide, by decide⟩
  exact c4_distance_symmetric demoDb hW (mkTopic "r" "r" none 1 true)
    (mkTopic "a" "a" (some "r") 1 true) (by decide) (by decide) rfl rfl
    ⟨1, PathLen.step (by decide) (PathLen.refl "a")⟩ 4 (by decide)
